import Mathlib

set_option maxRecDepth 8000

/-!
Verification of the maze generation, optimal-path computation and
traversal-analytics engine of the maze mini-game
(src/components/maze-game.tsx).

The grid is a two-dimensional JavaScript array of one-character strings;
we model the four characters WALL `#`, PATH (space), PLAYER `P`, EXIT `E`
as an enumeration and the array as a list of lists.  Coordinates are
JavaScript numbers used as integers; we model them as `Int`.  The
JavaScript `Set` of `"x,y"` strings is modelled as a list of points (the
string key is injective on integer coordinates).  Division of JavaScript
floating-point numbers is exact on the small rationals that occur here,
except for division by zero, which we model with an explicit
infinity/NaN value.
-/

namespace MazeGame

/-- Cell kinds stored in the maze grid, one per character used by the
source: WALL, PATH, PLAYER, EXIT. -/
inductive Cell where
  | wall
  | path
  | player
  | exitCell
  deriving DecidableEq

/-- An integer coordinate pair, mirroring the source's `Point`
interface (`x` then `y`). -/
structure Point where
  x : ℤ
  y : ℤ
  deriving DecidableEq

/-- The maze, a square array of cells indexed `maze[y][x]`. -/
abbrev Grid : Type := List (List Cell)

/-- The fixed side length of the generated maze in the source
(`const MAZE_SIZE = 21`). -/
def MAZE_SIZE : ℕ := 21

/-- Reading `maze[p.y][p.x]`: `none` models the out-of-bounds JavaScript
read (`undefined`, or a thrown `TypeError` when the row itself is
missing). -/
def cellAt (maze : Grid) (p : Point) : Option Cell :=
  if p.x < 0 ∨ p.y < 0 then none
  else (maze.get? p.y.toNat).bind fun row => row.get? p.x.toNat

/-- Writing `maze[p.y][p.x] = c`; out-of-range writes never occur in the
source (all writes are interior), so leaving the grid unchanged there is
adequate. -/
def setCell (maze : Grid) (p : Point) (c : Cell) : Grid :=
  if p.x < 0 ∨ p.y < 0 then maze
  else maze.set p.y.toNat ((maze.getD p.y.toNat []).set p.x.toNat c)

/-- The grid is a square matrix of side `N`. -/
def Dims (N : ℕ) (maze : Grid) : Prop :=
  maze.length = N ∧ ∀ row ∈ maze, row.length = N

instance (N : ℕ) (maze : Grid) : Decidable (Dims N maze) := by
  unfold Dims; infer_instance

/-- Componentwise addition of a direction offset to a point. -/
def Point.add (p d : Point) : Point := ⟨p.x + d.x, p.y + d.y⟩

/-- The four neighbour offsets of the breadth-first search, in the fixed
source order up, down, left, right. -/
def bfsDirections : List Point := [⟨0, -1⟩, ⟨0, 1⟩, ⟨-1, 0⟩, ⟨1, 0⟩]

/-- One frontier entry of the breadth-first search: a point together
with the full path taken to reach it. -/
structure QueueItem where
  point : Point
  path : List Point
  deriving DecidableEq

/-- The neighbour test of the breadth-first search: inside the `N` by
`N` bounds, not a wall and not yet visited. -/
def bfsOk (N : ℕ) (maze : Grid) (visited : List Point) (p : Point) : Prop :=
  0 ≤ p.x ∧ p.x < (N : ℤ) ∧ 0 ≤ p.y ∧ p.y < (N : ℤ) ∧
    cellAt maze p ≠ some Cell.wall ∧ ¬ p ∈ visited

instance (N : ℕ) (maze : Grid) (visited : List Point) (p : Point) :
    Decidable (bfsOk N maze visited p) := by
  unfold bfsOk; infer_instance

/-- One iteration of the `for (const dir of directions)` loop of the
search: accept the neighbour in direction `d`, marking it visited and
appending it to the queue with its extended path. -/
def bfsExpand (N : ℕ) (maze : Grid) (p : Point) (path : List Point)
    (acc : List QueueItem × List Point) (d : Point) : List QueueItem × List Point :=
  let newPoint := p.add d
  if bfsOk N maze acc.2 newPoint then
    (acc.1 ++ [⟨newPoint, path ++ [newPoint]⟩], acc.2 ++ [newPoint])
  else acc

/-- The breadth-first search loop of `findOptimalPath`, with an explicit
fuel argument bounding the number of dequeue steps (`none` means the
fuel ran out, which `findOptimalPath` is supplied enough fuel to
avoid). -/
def bfs (N : ℕ) (maze : Grid) (endP : Point) :
    ℕ → List QueueItem → List Point → Option (List Point)
  | 0, _, _ => none
  | _ + 1, [], _ => some []
  | fuel + 1, qi :: rest, visited =>
    if qi.point = endP then some qi.path
    else
      let s := List.foldl (bfsExpand N maze qi.point qi.path) (rest, visited) bfsDirections
      bfs N maze endP fuel s.1 s.2

/-- `findOptimalPath(maze, start, end)`: breadth-first search from
`start` over the non-wall cells of the `N` by `N` grid, returning the
first path that reaches `end`, or `[]` when the queue empties without
reaching it.  The source fixes `N = MAZE_SIZE`; the side length is kept
as a parameter so that the same search runs on the hand-built five by
five grids of the specification. -/
def findOptimalPath (N : ℕ) (maze : Grid) (start endP : Point) : List Point :=
  (bfs N maze endP (N * N + 1) [⟨start, [start]⟩] [start]).getD []

/-- `calculatePathDeviation(optimalPath, actualPath)`: reduce both paths
to their sets of distinct cells (the source keys a JavaScript `Set` by
the injective string `x,y`) and add the two set-difference counts. -/
def calculatePathDeviation (optimalPath actualPath : List Point) : ℕ :=
  let optimalSet := optimalPath.dedup
  let actualSet := actualPath.dedup
  (actualSet.filter (fun p => ¬ p ∈ optimalSet)).length +
    (optimalSet.filter (fun p => ¬ p ∈ actualSet)).length

/-- The four two-step carve directions of the generator before
shuffling, in source order: `[0,-2], [0,2], [-2,0], [2,0]`, each a
`(dx, dy)` pair. -/
def carveDirections : List Point := [⟨0, -2⟩, ⟨0, 2⟩, ⟨-2, 0⟩, ⟨2, 0⟩]

mutual

/-- One invocation of `carvePath(x, y)`: mark the current cell open,
draw a shuffled direction order from the random source (`σ k` models
the permutation produced by the k-th `sort(() => Math.random() - 0.5)`
call of the run), and walk the directions.  The fuel bounds the
recursion depth; `generateMaze` supplies more fuel than the carveable
cell count, which the recursion depth never exceeds. -/
def carvePath (N : ℕ) (σ : ℕ → List Point) : ℕ → Grid → ℕ → Point → Grid × ℕ
  | 0, maze, k, _ => (maze, k)
  | fuel + 1, maze, k, p => carveLoop N σ fuel (setCell maze p Cell.path) (k + 1) p (σ k)

/-- The `for (const [dx, dy] of directions)` loop of `carvePath`: when
the two-step neighbour is strictly inside the boundary and still a
wall, open it together with the connecting cell halfway and recurse
into it before trying the next direction. -/
def carveLoop (N : ℕ) (σ : ℕ → List Point) : ℕ → Grid → ℕ → Point → List Point → Grid × ℕ
  | _, maze, k, _, [] => (maze, k)
  | fuel, maze, k, p, d :: ds =>
    if 0 < (p.add d).x ∧ (p.add d).x < (N : ℤ) - 1 ∧ 0 < (p.add d).y ∧ (p.add d).y < (N : ℤ) - 1 ∧
        cellAt maze (p.add d) = some Cell.wall then
      let maze2 := setCell (setCell maze (p.add d) Cell.path)
        ⟨p.x + d.x / 2, p.y + d.y / 2⟩ Cell.path
      let r := carvePath N σ fuel maze2 k (p.add d)
      carveLoop N σ fuel r.1 r.2 p ds
    else carveLoop N σ fuel maze k p ds

end

/-- `generateMaze()`: an all-wall grid, carved depth-first from
`(1, 1)`, then the player glyph written at `(1, 1)` and the exit glyph
at `(N-2, N-2)`.  The source fixes `N = MAZE_SIZE`; the side length and
the random source are parameters of the embedding. -/
def generateMaze (N : ℕ) (σ : ℕ → List Point) : Grid :=
  let maze := List.replicate N (List.replicate N Cell.wall)
  let r := carvePath N σ (N * N + 1) maze 0 ⟨1, 1⟩
  setCell (setCell r.1 ⟨1, 1⟩ Cell.player) ⟨(N : ℤ) - 2, (N : ℤ) - 2⟩ Cell.exitCell

/-- Modelled from the spec: the injectable seeded random-number source
that the determinism note of section 4.2 and the configuration
interface of section 6 require; the source instead calls the ambient
unseeded `Math.random()`, so this strategy boundary is missing from the
code.  A linear congruential step derives each shuffle of the carve
directions from the seed and the call index. -/
def seededShuffle (seed : ℕ) : ℕ → List Point := fun k =>
  let s := (1103515245 * (seed + k + 1) + 12345) % 2 ^ 31
  (carveDirections.permutations.get? (s % 24)).getD carveDirections

/-- Modelled from the spec: the configuration error of sections 4.1, 6
and 7(a). -/
inductive ConfigError where
  | invalidSideLength (n : ℕ)
  deriving DecidableEq

/-- Modelled from the spec: the configuration boundary of sections 4.1,
6 and 7(a), which is absent from the source (the side length is the
hard-wired constant `MAZE_SIZE = 21` and no validation exists): an even
or too-small side length is rejected as a configuration error before
any generation occurs, and a valid one produces one Grid and one
Optimal Path. -/
def configureMaze (sideLength : ℕ) (σ : ℕ → List Point) :
    Except ConfigError (Grid × List Point) :=
  if sideLength % 2 = 0 ∨ sideLength < 5 then
    Except.error (ConfigError.invalidSideLength sideLength)
  else
    let g := generateMaze sideLength σ
    Except.ok (g, findOptimalPath sideLength g ⟨1, 1⟩ ⟨(sideLength : ℤ) - 2, (sideLength : ℤ) - 2⟩)

/-- The four arrow-key directions of `handleMove`. -/
inductive Dir where
  | up
  | down
  | left
  | right
  deriving DecidableEq

/-- The direction offsets dispatched by the keydown handler:
up `(0,-1)`, down `(0,1)`, left `(-1,0)`, right `(1,0)`. -/
def dirVec : Dir → Point
  | Dir.up => ⟨0, -1⟩
  | Dir.down => ⟨0, 1⟩
  | Dir.left => ⟨-1, 0⟩
  | Dir.right => ⟨1, 0⟩

/-- The per-direction attempt counters (`movePatterns`). -/
structure MovePatterns where
  up : ℕ
  down : ℕ
  left : ℕ
  right : ℕ
  deriving DecidableEq

/-- Increment the counter of the attempted direction
(`prev[directionKey] + 1`). -/
def bumpPattern (d : Dir) (m : MovePatterns) : MovePatterns :=
  match d with
  | Dir.up => { m with up := m.up + 1 }
  | Dir.down => { m with down := m.down + 1 }
  | Dir.left => { m with left := m.left + 1 }
  | Dir.right => { m with right := m.right + 1 }

/-- The `firstHalfMetrics` record `{ moves, collisions, time }`. -/
structure HalfMetrics where
  moves : ℕ
  collisions : ℕ
  time : ℤ
  deriving DecidableEq

/-- The component's game phase. -/
inductive GState where
  | ready
  | playing
  | gameOver
  deriving DecidableEq

/-- A JavaScript floating-point result: an exact rational, a signed
infinity (from dividing a nonzero value by zero) or NaN (from `0/0`).
All finite values occurring in the metrics are small exact rationals. -/
inductive JsNum where
  | num (q : ℚ)
  | inf
  | negInf
  | nan
  deriving DecidableEq

/-- JavaScript division `a / b` of finite values. -/
def jsDiv (a b : ℚ) : JsNum :=
  if b = 0 then (if a = 0 then JsNum.nan else if 0 < a then JsNum.inf else JsNum.negInf)
  else JsNum.num (a / b)

/-- JavaScript subtraction `1 - v` applied to a division result. -/
def jsOneSub : JsNum → JsNum
  | JsNum.num q => JsNum.num (1 - q)
  | JsNum.inf => JsNum.negInf
  | JsNum.negInf => JsNum.inf
  | JsNum.nan => JsNum.nan

/-- Speed and accuracy of one half of the two-phase split. -/
structure PhasePerf where
  speed : JsNum
  accuracy : JsNum
  deriving DecidableEq

/-- The `performanceOverTime` record. -/
structure PerfOverTime where
  firstHalf : PhasePerf
  secondHalf : PhasePerf
  deriving DecidableEq

/-- The `MazeMetrics` record handed to `onComplete`. -/
structure MazeMetrics where
  completionTime : ℤ
  totalMoves : ℕ
  wallCollisions : ℕ
  backtrackCount : ℕ
  pathLength : ℕ
  optimalPathLength : ℕ
  pathEfficiency : JsNum
  averageTimePerMove : JsNum
  movementPatterns : MovePatterns
  heatmap : List (List ℕ)
  performanceOverTime : PerfOverTime
  pathDeviation : ℕ
  optimalPath : List Point
  actualPath : List Point

/-- Increment entry `i` of a row (`newHeatmap[y][x]++`, row part). -/
def bumpRow : List ℕ → ℕ → List ℕ
  | [], _ => []
  | a :: t, 0 => (a + 1) :: t
  | a :: t, n + 1 => a :: bumpRow t n

/-- Increment entry `(yn, xn)` of a matrix. -/
def bumpAt : List (List ℕ) → ℕ → ℕ → List (List ℕ)
  | [], _, _ => []
  | r :: t, 0, xn => bumpRow r xn :: t
  | r :: t, yn + 1, xn => r :: bumpAt t yn xn

/-- `heatmap[newPos.y][newPos.x]++`. -/
def bumpHeat (h : List (List ℕ)) (p : Point) : List (List ℕ) :=
  if p.x < 0 ∨ p.y < 0 then h else bumpAt h p.y.toNat p.x.toNat

/-- Sum of all entries of the heatmap. -/
def matSum (h : List (List ℕ)) : ℕ := (h.map List.sum).sum

/-- The fixed start cell `(1,1)`. -/
def startPoint : Point := ⟨1, 1⟩

/-- The fixed exit cell `(N-2, N-2)`. -/
def exitPoint (N : ℕ) : Point := ⟨(N : ℤ) - 2, (N : ℤ) - 2⟩

/-- The per-episode component state relevant to the engine: player
position, game phase and all metric accumulators.  Each field mirrors
one `useState` variable of `MazeGame`. -/
structure EpisodeState where
  playerPos : Point
  gameState : GState
  score : ℤ
  startTime : ℤ
  moveCount : ℕ
  wallCollisions : ℕ
  backtrackCount : ℕ
  movementHistory : List Dir
  visitedCells : List Point
  movePatterns : MovePatterns
  firstHalfMetrics : HalfMetrics
  heatmap : List (List ℕ)
  optimalPath : List Point
  actualPath : List Point
  pathDeviation : ℕ

/-- The state produced by `startGame` for a given maze at wall-clock
time `now`: player at `(1,1)`, all counters zero, visited set `{(1,1)}`,
zero heatmap, actual path `[(1,1)]` and the optimal path computed once
by `findOptimalPath`. -/
def startState (N : ℕ) (maze : Grid) (now : ℤ) : EpisodeState :=
  { playerPos := startPoint
    gameState := GState.playing
    score := 0
    startTime := now
    moveCount := 0
    wallCollisions := 0
    backtrackCount := 0
    movementHistory := []
    visitedCells := [startPoint]
    movePatterns := ⟨0, 0, 0, 0⟩
    firstHalfMetrics := ⟨0, 0, 0⟩
    heatmap := List.replicate N (List.replicate N 0)
    optimalPath := findOptimalPath N maze startPoint (exitPoint N)
    actualPath := [startPoint]
    pathDeviation := 0 }

/-- The timer expiring: the interval callback only flips the phase to
game-over, leaving every accumulator as it was. -/
def timeoutState (st : EpisodeState) : EpisodeState :=
  { st with gameState := GState.gameOver }

/-- The score computed on reaching the exit (time bonus, efficiency
bonus, accuracy bonus, floor of 100).  All divisions here have nonzero
denominators, so exact rational arithmetic coincides with JavaScript. -/
def successScore (st : EpisodeState) (totalTime : ℤ) : ℤ :=
  let timeBonus : ℤ := max 0 ⌊((60 : ℚ) - (totalTime : ℚ) / 1000) * 10⌋
  let efficiencyBonus : ℤ :=
    ⌊((st.optimalPath.length : ℚ) / ((st.movementHistory.length : ℚ) + 1)) * 500⌋
  let accuracyBonus : ℤ :=
    ⌊(1 - (st.wallCollisions : ℚ) / ((st.moveCount : ℚ) + 1)) * 300⌋
  max 100 (timeBonus + efficiencyBonus + accuracyBonus)

/-- The metrics record built inside `handleMove` when the accepted move
lands on the exit.  React delivers the pre-call state to the callback's
closures, so every field reads the pre-move value (`st`), with the
explicit `+ 1` compensations the source writes; in particular
`firstHalfMetrics` is the value from before this move even if this very
move crossed the halfway threshold, and the `secondHalf` divisions are
not guarded against a zero denominator. -/
def successMetrics (st : EpisodeState) (newPos : Point) (now : ℤ) : MazeMetrics :=
  let totalTime := now - st.startTime
  let finalDeviation := calculatePathDeviation st.optimalPath (st.actualPath ++ [newPos])
  { completionTime := totalTime
    totalMoves := st.moveCount + 1
    wallCollisions := st.wallCollisions
    backtrackCount := st.backtrackCount
    pathLength := st.movementHistory.length + 1
    optimalPathLength := st.optimalPath.length
    pathEfficiency := jsDiv (st.optimalPath.length : ℚ) ((st.movementHistory.length : ℚ) + 1)
    averageTimePerMove := jsDiv (totalTime : ℚ) ((st.moveCount : ℚ) + 1)
    movementPatterns := st.movePatterns
    heatmap := st.heatmap
    performanceOverTime :=
      { firstHalf :=
          { speed := if 0 < st.firstHalfMetrics.moves then
                jsDiv (st.firstHalfMetrics.time : ℚ) (st.firstHalfMetrics.moves : ℚ)
              else JsNum.num 0
            accuracy := if 0 < st.firstHalfMetrics.moves then
                jsOneSub (jsDiv (st.firstHalfMetrics.collisions : ℚ) (st.firstHalfMetrics.moves : ℚ))
              else JsNum.num 0 }
        secondHalf :=
          { speed := jsDiv ((totalTime : ℚ) - (st.firstHalfMetrics.time : ℚ))
                ((st.moveCount : ℚ) - (st.firstHalfMetrics.moves : ℚ))
            accuracy := jsOneSub (jsDiv
                ((st.wallCollisions : ℚ) - (st.firstHalfMetrics.collisions : ℚ))
                ((st.moveCount : ℚ) - (st.firstHalfMetrics.moves : ℚ))) } }
    pathDeviation := finalDeviation
    optimalPath := st.optimalPath
    actualPath := st.actualPath ++ [newPos] }

/-- One call of `handleMove(direction, key)` at wall-clock time `now`:
ignore input outside the playing phase; count the attempted direction;
on a wall destination only count the collision; otherwise count a
backtrack when the destination was already visited, extend the visited
set, heatmap, history and actual path, move the player, record the
halfway split, and on reaching the exit produce the final metrics and
the score.  The second component is the metrics record passed to
`onComplete`, when this move completed the maze. -/
def handleMove (N : ℕ) (maze : Grid) (st : EpisodeState) (d : Dir) (now : ℤ) :
    EpisodeState × Option MazeMetrics :=
  if st.gameState ≠ GState.playing then (st, none) else
  let newPos := st.playerPos.add (dirVec d)
  let patterns := bumpPattern d st.movePatterns
  if cellAt maze newPos = some Cell.wall then
    ({ st with movePatterns := patterns, wallCollisions := st.wallCollisions + 1 }, none)
  else
    let backtrack := if newPos ∈ st.visitedCells then st.backtrackCount + 1 else st.backtrackCount
    let visited := st.visitedCells.insert newPos
    let heat := bumpHeat st.heatmap newPos
    let history := st.movementHistory ++ [d]
    let count := st.moveCount + 1
    let actual := st.actualPath ++ [newPos]
    let firstHalf := if st.moveCount = N * N / 2 then
        HalfMetrics.mk st.moveCount st.wallCollisions (now - st.startTime)
      else st.firstHalfMetrics
    if newPos = exitPoint N then
      let metrics := successMetrics st newPos now
      ({ st with movePatterns := patterns, backtrackCount := backtrack,
                 visitedCells := visited, heatmap := heat, movementHistory := history,
                 moveCount := count, actualPath := actual, playerPos := newPos,
                 firstHalfMetrics := firstHalf,
                 pathDeviation := calculatePathDeviation st.optimalPath (st.actualPath ++ [newPos]),
                 gameState := GState.gameOver,
                 score := successScore st (now - st.startTime) }, some metrics)
    else
      ({ st with movePatterns := patterns, backtrackCount := backtrack,
                 visitedCells := visited, heatmap := heat, movementHistory := history,
                 moveCount := count, actualPath := actual, playerPos := newPos,
                 firstHalfMetrics := firstHalf }, none)

/-- The metrics record built by the game-over screen's Next Game button
(the path taken after a timeout): unlike the success-path record it
uses the current accumulators unshifted, guards the second-half split
but not `pathEfficiency` or `averageTimePerMove`, and unconditionally
appends the exit cell to the recorded actual path. -/
def nextGameMetrics (N : ℕ) (st : EpisodeState) (now : ℤ) : MazeMetrics :=
  { completionTime := now - st.startTime
    totalMoves := st.moveCount
    wallCollisions := st.wallCollisions
    backtrackCount := st.backtrackCount
    pathLength := st.movementHistory.length
    optimalPathLength := st.optimalPath.length
    pathEfficiency := jsDiv (st.optimalPath.length : ℚ) (st.movementHistory.length : ℚ)
    averageTimePerMove := jsDiv ((now : ℚ) - (st.startTime : ℚ)) (st.moveCount : ℚ)
    movementPatterns := st.movePatterns
    heatmap := st.heatmap
    performanceOverTime :=
      { firstHalf :=
          { speed := if 0 < st.firstHalfMetrics.moves then
                jsDiv (st.firstHalfMetrics.time : ℚ) (st.firstHalfMetrics.moves : ℚ)
              else JsNum.num 0
            accuracy := if 0 < st.firstHalfMetrics.moves then
                jsOneSub (jsDiv (st.firstHalfMetrics.collisions : ℚ) (st.firstHalfMetrics.moves : ℚ))
              else JsNum.num 0 }
        secondHalf :=
          { speed := if st.firstHalfMetrics.moves < st.moveCount then
                jsDiv ((now : ℚ) - (st.startTime : ℚ) - (st.firstHalfMetrics.time : ℚ))
                  ((st.moveCount : ℚ) - (st.firstHalfMetrics.moves : ℚ))
              else JsNum.num 0
            accuracy := if st.firstHalfMetrics.moves < st.moveCount then
                jsOneSub (jsDiv
                  ((st.wallCollisions : ℚ) - (st.firstHalfMetrics.collisions : ℚ))
                  ((st.moveCount : ℚ) - (st.firstHalfMetrics.moves : ℚ)))
              else JsNum.num 0 } }
    pathDeviation := st.pathDeviation
    optimalPath := st.optimalPath
    actualPath := st.actualPath ++ [exitPoint N] }

/-- Feed a sequence of move attempts (each with its wall-clock time)
through `handleMove`. -/
def runMoves (N : ℕ) (maze : Grid) : EpisodeState → List (Dir × ℤ) → EpisodeState
  | st, [] => st
  | st, (d, t) :: rest => runMoves N maze (handleMove N maze st d t).1 rest

/-- A move attempt is accepted (not ignored, not a collision): the game
is in the playing phase and the destination cell is not a wall. -/
def Accepted (maze : Grid) (st : EpisodeState) (d : Dir) : Prop :=
  st.gameState = GState.playing ∧ cellAt maze (st.playerPos.add (dirVec d)) ≠ some Cell.wall

instance (maze : Grid) (st : EpisodeState) (d : Dir) : Decidable (Accepted maze st d) := by
  unfold Accepted; infer_instance

/-- The number of accepted moves along a run of attempts. -/
def countAccepted (N : ℕ) (maze : Grid) : EpisodeState → List (Dir × ℤ) → ℕ
  | _, [] => 0
  | st, (d, t) :: rest =>
    (if Accepted maze st d then 1 else 0) + countAccepted N maze (handleMove N maze st d t).1 rest

/-- Point `p` lies inside the `N` by `N` grid. -/
def InBounds (N : ℕ) (p : Point) : Prop :=
  0 ≤ p.x ∧ p.x < (N : ℤ) ∧ 0 ≤ p.y ∧ p.y < (N : ℤ)

instance (N : ℕ) (p : Point) : Decidable (InBounds N p) := by
  unfold InBounds; infer_instance

/-- Point `p` lies strictly inside the boundary ring. -/
def Interior (N : ℕ) (p : Point) : Prop :=
  1 ≤ p.x ∧ p.x ≤ (N : ℤ) - 2 ∧ 1 ≤ p.y ∧ p.y ≤ (N : ℤ) - 2

instance (N : ℕ) (p : Point) : Decidable (Interior N p) := by
  unfold Interior; infer_instance

/-- Every cell of the boundary ring (row 0, row N-1, column 0,
column N-1) is a wall. -/
def BoundaryWalls (N : ℕ) (maze : Grid) : Prop :=
  ∀ xn < N, ∀ yn < N, (xn = 0 ∨ xn = N - 1 ∨ yn = 0 ∨ yn = N - 1) →
    cellAt maze ⟨(xn : ℤ), (yn : ℤ)⟩ = some Cell.wall

instance (N : ℕ) (maze : Grid) : Decidable (BoundaryWalls N maze) := by
  unfold BoundaryWalls; infer_instance

/-- The heatmap is an `N` by `N` matrix. -/
def MatDims (N : ℕ) (h : List (List ℕ)) : Prop :=
  h.length = N ∧ ∀ r ∈ h, r.length = N

/-- The hand-built five by five grid of the specification's test
properties: boundary walls, the corridor `(1,1), (1,2), (1,3), (2,3),
(3,3)` via `(1,3)`, the detour via `(3,1)` around the walled centre. -/
def specGrid5 : Grid :=
  [[Cell.wall, Cell.wall, Cell.wall, Cell.wall, Cell.wall],
   [Cell.wall, Cell.path, Cell.path, Cell.path, Cell.wall],
   [Cell.wall, Cell.path, Cell.wall, Cell.path, Cell.wall],
   [Cell.wall, Cell.path, Cell.path, Cell.path, Cell.wall],
   [Cell.wall, Cell.wall, Cell.wall, Cell.wall, Cell.wall]]

/-- A five by five grid whose exit cell `(3,3)` is walled off from the
start, for the unreachable case of the Finder. -/
def splitGrid5 : Grid :=
  [[Cell.wall, Cell.wall, Cell.wall, Cell.wall, Cell.wall],
   [Cell.wall, Cell.path, Cell.path, Cell.wall, Cell.wall],
   [Cell.wall, Cell.wall, Cell.wall, Cell.wall, Cell.wall],
   [Cell.wall, Cell.wall, Cell.wall, Cell.path, Cell.wall],
   [Cell.wall, Cell.wall, Cell.wall, Cell.wall, Cell.wall]]

/-- Three accepted moves on `specGrid5`: down, down, right, landing on
`(2,3)` one step short of the exit. -/
def threeMoves : List (Dir × ℤ) := [(Dir.down, 100), (Dir.down, 200), (Dir.right, 300)]

section PathDeviationLemmas

/-- One of the two set differences of `calculatePathDeviation`, as a
`Finset` cardinality. -/
lemma dedup_filter_not_mem_length (A B : List Point) :
    (B.dedup.filter (fun p => ¬ p ∈ A.dedup)).length = (B.toFinset \ A.toFinset).card := by
  have hnd : (B.dedup.filter (fun p => ¬ p ∈ A.dedup)).Nodup := B.nodup_dedup.filter _
  rw [← List.toFinset_card_of_nodup hnd]
  congr 1
  ext p
  simp [List.mem_filter, List.mem_dedup, Finset.mem_sdiff, List.mem_toFinset]

/-- `calculatePathDeviation` computes the two-sided set difference of
the distinct-cell sets of its arguments. -/
lemma calculatePathDeviation_eq (A B : List Point) :
    calculatePathDeviation A B = (B.toFinset \ A.toFinset).card + (A.toFinset \ B.toFinset).card := by
  unfold calculatePathDeviation
  dsimp only []
  rw [dedup_filter_not_mem_length, dedup_filter_not_mem_length]

end PathDeviationLemmas

/-- C9: the path-deviation function equals the symmetric-difference
cardinality of the two paths' distinct-cell sets; it is symmetric, is
zero on equal paths, and depends only on the cell sets of its
arguments, hence is insensitive to order and duplicates. -/
theorem C9_pathDeviation_symmDiff :
    (∀ A B : List Point, calculatePathDeviation A B = (symmDiff A.toFinset B.toFinset).card) ∧
    (∀ A B : List Point, calculatePathDeviation A B = calculatePathDeviation B A) ∧
    (∀ A : List Point, calculatePathDeviation A A = 0) ∧
    (∀ A A2 B B2 : List Point, A.toFinset = A2.toFinset → B.toFinset = B2.toFinset →
      calculatePathDeviation A B = calculatePathDeviation A2 B2) := by
  have hsym : ∀ A B : List Point,
      calculatePathDeviation A B = (symmDiff A.toFinset B.toFinset).card := by
    intro A B
    rw [calculatePathDeviation_eq, symmDiff_def]
    rw [Finset.sup_eq_union, Finset.card_union_of_disjoint disjoint_sdiff_sdiff]
    exact Nat.add_comm _ _
  refine ⟨hsym, ?_, ?_, ?_⟩
  · intro A B
    rw [hsym, hsym, symmDiff_comm]
  · intro A
    rw [hsym, symmDiff_self]
    rfl
  · intro A A2 B B2 hA hB
    rw [hsym, hsym, hA, hB]

/-- Witness for C9: concrete instance of the order/duplicate
insensitivity, with the set equalities discharged by computation. -/
theorem C9_witness :
    calculatePathDeviation [Point.mk 1 1, Point.mk 2 1] [Point.mk 1 2]
      = calculatePathDeviation [Point.mk 2 1, Point.mk 1 1, Point.mk 2 1] [Point.mk 1 2, Point.mk 1 2] :=
  C9_pathDeviation_symmDiff.2.2.2 [Point.mk 1 1, Point.mk 2 1]
    [Point.mk 2 1, Point.mk 1 1, Point.mk 2 1] [Point.mk 1 2] [Point.mk 1 2, Point.mk 1 2]
    (by decide) (by decide)

section HeatLemmas

lemma bumpRow_length (r : List ℕ) (i : ℕ) : (bumpRow r i).length = r.length := by
  induction r generalizing i with
  | nil => rfl
  | cons a t ih =>
    cases i with
    | zero => rfl
    | succ n => simp [bumpRow, ih]

lemma bumpRow_sum (r : List ℕ) (i : ℕ) (h : i < r.length) :
    (bumpRow r i).sum = r.sum + 1 := by
  induction r generalizing i with
  | nil => simp at h
  | cons a t ih =>
    cases i with
    | zero => simp [bumpRow]; omega
    | succ n =>
      have := ih n (by simpa using h)
      simp [bumpRow, this]; omega

lemma matSum_cons (r : List ℕ) (t : List (List ℕ)) :
    matSum (r :: t) = r.sum + matSum t := by
  simp [matSum]

lemma bumpAt_length (h : List (List ℕ)) (yn xn : ℕ) :
    (bumpAt h yn xn).length = h.length := by
  induction h generalizing yn with
  | nil => rfl
  | cons r t ih =>
    cases yn with
    | zero => simp [bumpAt]
    | succ n => simp [bumpAt, ih]

lemma bumpAt_mem (h : List (List ℕ)) (yn xn : ℕ) :
    ∀ r ∈ bumpAt h yn xn, r ∈ h ∨ ∃ r0 ∈ h, r = bumpRow r0 xn := by
  induction h generalizing yn with
  | nil => intro r hr; simp [bumpAt] at hr
  | cons a t ih =>
    cases yn with
    | zero =>
      intro r hr
      rcases List.mem_cons.1 hr with h1 | h1
      · exact Or.inr ⟨a, List.mem_cons_self _ _, h1⟩
      · exact Or.inl (List.mem_cons_of_mem _ h1)
    | succ n =>
      intro r hr
      rcases List.mem_cons.1 hr with h1 | h1
      · exact Or.inl (h1 ▸ List.mem_cons_self _ _)
      · rcases ih n r h1 with h2 | ⟨r0, hr0, he⟩
        · exact Or.inl (List.mem_cons_of_mem _ h2)
        · exact Or.inr ⟨r0, List.mem_cons_of_mem _ hr0, he⟩

lemma bumpAt_dims (N : ℕ) (h : List (List ℕ)) (yn xn : ℕ) (hm : MatDims N h) :
    MatDims N (bumpAt h yn xn) := by
  refine ⟨by rw [bumpAt_length]; exact hm.1, ?_⟩
  intro r hr
  rcases bumpAt_mem h yn xn r hr with h1 | ⟨r0, hr0, he⟩
  · exact hm.2 r h1
  · rw [he, bumpRow_length]; exact hm.2 r0 hr0

lemma matSum_bumpAt (h : List (List ℕ)) (yn xn : ℕ) (hy : yn < h.length)
    (hx : ∀ r ∈ h, xn < r.length) :
    matSum (bumpAt h yn xn) = matSum h + 1 := by
  induction h generalizing yn with
  | nil => simp at hy
  | cons a t ih =>
    cases yn with
    | zero =>
      have : bumpAt (a :: t) 0 xn = bumpRow a xn :: t := rfl
      rw [this, matSum_cons, matSum_cons, bumpRow_sum a xn (hx a (List.mem_cons_self _ _))]
      omega
    | succ n =>
      have : bumpAt (a :: t) (n + 1) xn = a :: bumpAt t n xn := rfl
      rw [this, matSum_cons, matSum_cons,
        ih n (by simpa using hy)]
      · omega
      · intro r hr; exact hx r (List.mem_cons_of_mem _ hr)

/-- Bumping the heatmap at an in-bounds point preserves the matrix
dimensions and increases the total by exactly one. -/
lemma bumpHeat_spec (N : ℕ) (h : List (List ℕ)) (p : Point)
    (hm : MatDims N h) (hp : InBounds N p) :
    MatDims N (bumpHeat h p) ∧ matSum (bumpHeat h p) = matSum h + 1 := by
  obtain ⟨hx0, hxN, hy0, hyN⟩ := hp
  have hxy : ¬ (p.x < 0 ∨ p.y < 0) := by omega
  unfold bumpHeat
  rw [if_neg hxy]
  refine ⟨bumpAt_dims N h _ _ hm, matSum_bumpAt h _ _ ?_ ?_⟩
  · rw [hm.1]; omega
  · intro r hr; rw [hm.2 r hr]; omega

end HeatLemmas

section StepLemmas

lemma interior_inBounds {N : ℕ} {p : Point} (h : Interior N p) : InBounds N p := by
  obtain ⟨h1, h2, h3, h4⟩ := h
  exact ⟨by omega, by omega, by omega, by omega⟩

/-- A non-wall destination one step from an interior cell is itself
interior, because the whole boundary ring is walls. -/
lemma step_interior (N : ℕ) (maze : Grid) (p : Point) (d : Dir)
    (hb : BoundaryWalls N maze) (hp : Interior N p)
    (hnw : cellAt maze (p.add (dirVec d)) ≠ some Cell.wall) :
    Interior N (p.add (dirVec d)) := by
  obtain ⟨h1, h2, h3, h4⟩ := hp
  have hib : InBounds N (p.add (dirVec d)) := by
    cases d <;> exact ⟨by simp [Point.add, dirVec]; omega, by simp [Point.add, dirVec]; omega,
      by simp [Point.add, dirVec]; omega, by simp [Point.add, dirVec]; omega⟩
  by_contra hni
  obtain ⟨g1, g2, g3, g4⟩ := hib
  have hring : (p.add (dirVec d)).x = 0 ∨ (p.add (dirVec d)).x = (N : ℤ) - 1 ∨
      (p.add (dirVec d)).y = 0 ∨ (p.add (dirVec d)).y = (N : ℤ) - 1 := by
    unfold Interior at hni
    omega
  apply hnw
  have hq : p.add (dirVec d) = ⟨(((p.add (dirVec d)).x.toNat : ℕ) : ℤ),
      (((p.add (dirVec d)).y.toNat : ℕ) : ℤ)⟩ := by
    have ex : ((p.add (dirVec d)).x.toNat : ℤ) = (p.add (dirVec d)).x := Int.toNat_of_nonneg g1
    have ey : ((p.add (dirVec d)).y.toNat : ℤ) = (p.add (dirVec d)).y := Int.toNat_of_nonneg g3
    rw [ex, ey]
  rw [hq]
  exact hb (p.add (dirVec d)).x.toNat (by omega) (p.add (dirVec d)).y.toNat (by omega) (by omega)

lemma handleMove_notPlaying (N : ℕ) (maze : Grid) (st : EpisodeState) (d : Dir) (now : ℤ)
    (hg : st.gameState ≠ GState.playing) :
    handleMove N maze st d now = (st, none) := by
  unfold handleMove
  rw [if_pos hg]

lemma handleMove_wall (N : ℕ) (maze : Grid) (st : EpisodeState) (d : Dir) (now : ℤ)
    (hg : st.gameState = GState.playing)
    (hw : cellAt maze (st.playerPos.add (dirVec d)) = some Cell.wall) :
    handleMove N maze st d now =
      ({ st with movePatterns := bumpPattern d st.movePatterns,
                 wallCollisions := st.wallCollisions + 1 }, none) := by
  have hng : ¬ st.gameState ≠ GState.playing := by simp [hg]
  simp only [handleMove, if_neg hng, if_pos hw]

lemma handleMove_accepted_fields (N : ℕ) (maze : Grid) (st : EpisodeState) (d : Dir) (now : ℤ)
    (hg : st.gameState = GState.playing)
    (hw : cellAt maze (st.playerPos.add (dirVec d)) ≠ some Cell.wall) :
    (handleMove N maze st d now).1.playerPos = st.playerPos.add (dirVec d) ∧
    (handleMove N maze st d now).1.heatmap = bumpHeat st.heatmap (st.playerPos.add (dirVec d)) ∧
    (handleMove N maze st d now).1.actualPath
      = st.actualPath ++ [st.playerPos.add (dirVec d)] ∧
    (handleMove N maze st d now).1.moveCount = st.moveCount + 1 := by
  have hng : ¬ st.gameState ≠ GState.playing := by simp [hg]
  simp only [handleMove, if_neg hng, if_neg hw]
  split <;> exact ⟨rfl, rfl, rfl, rfl⟩

lemma handleMove_patterns (N : ℕ) (maze : Grid) (st : EpisodeState) (d : Dir) (now : ℤ)
    (hg : st.gameState = GState.playing) :
    (handleMove N maze st d now).1.movePatterns = bumpPattern d st.movePatterns := by
  have hng : ¬ st.gameState ≠ GState.playing := by simp [hg]
  simp only [handleMove, if_neg hng]
  split
  · rfl
  · split <;> rfl

/-- One `handleMove` call: positions stay interior, the heatmap stays an
`N` by `N` matrix, and the heatmap total and the actual-path length grow
by one exactly on accepted moves. -/
lemma handleMove_inv (N : ℕ) (maze : Grid) (st : EpisodeState) (d : Dir) (now : ℤ)
    (hb : BoundaryWalls N maze)
    (hpos : Interior N st.playerPos) (hm : MatDims N st.heatmap) :
    Interior N (handleMove N maze st d now).1.playerPos ∧
    MatDims N (handleMove N maze st d now).1.heatmap ∧
    matSum (handleMove N maze st d now).1.heatmap
      = matSum st.heatmap + (if Accepted maze st d then 1 else 0) := by
  by_cases hg : st.gameState = GState.playing
  · by_cases hw : cellAt maze (st.playerPos.add (dirVec d)) = some Cell.wall
    · have hacc : ¬ Accepted maze st d := by
        intro h; exact h.2 hw
      rw [handleMove_wall N maze st d now hg hw, if_neg hacc]
      exact ⟨hpos, hm, rfl⟩
    · have hacc : Accepted maze st d := ⟨hg, hw⟩
      obtain ⟨e1, e2, _e3, _e4⟩ := handleMove_accepted_fields N maze st d now hg hw
      have hint : Interior N (st.playerPos.add (dirVec d)) :=
        step_interior N maze st.playerPos d hb hpos hw
      obtain ⟨hdim, hsum⟩ :=
        bumpHeat_spec N st.heatmap (st.playerPos.add (dirVec d)) hm (interior_inBounds hint)
      rw [e1, e2, if_pos hacc]
      exact ⟨hint, hdim, hsum⟩
  · have hacc : ¬ Accepted maze st d := by
      intro h; exact hg h.1
    rw [handleMove_notPlaying N maze st d now hg, if_neg hacc]
    exact ⟨hpos, hm, rfl⟩

/-- Actual-path growth needs no grid assumptions: the accepted branch
appends exactly the destination cell. -/
lemma handleMove_actualPath_length (N : ℕ) (maze : Grid) (st : EpisodeState) (d : Dir) (now : ℤ) :
    (handleMove N maze st d now).1.actualPath.length
      = st.actualPath.length + (if Accepted maze st d then 1 else 0) := by
  by_cases hg : st.gameState = GState.playing
  · by_cases hw : cellAt maze (st.playerPos.add (dirVec d)) = some Cell.wall
    · have hacc : ¬ Accepted maze st d := fun h => h.2 hw
      rw [handleMove_wall N maze st d now hg hw, if_neg hacc]
      simp
    · have hacc : Accepted maze st d := ⟨hg, hw⟩
      obtain ⟨_, _, e3, _⟩ := handleMove_accepted_fields N maze st d now hg hw
      rw [e3, if_pos hacc]
      simp
  · have hacc : ¬ Accepted maze st d := fun h => hg h.1
    rw [handleMove_notPlaying N maze st d now hg, if_neg hacc]
    simp

lemma runMoves_actualPath_length (N : ℕ) (maze : Grid) :
    ∀ (moves : List (Dir × ℤ)) (st : EpisodeState),
    (runMoves N maze st moves).actualPath.length
      = st.actualPath.length + countAccepted N maze st moves := by
  intro moves
  induction moves with
  | nil => intro st; rfl
  | cons m rest ih =>
    intro st
    obtain ⟨d, t⟩ := m
    have h1 := handleMove_actualPath_length N maze st d t
    have h2 := ih (handleMove N maze st d t).1
    unfold runMoves countAccepted
    rw [h2, h1]
    omega

lemma runMoves_inv (N : ℕ) (maze : Grid) (hb : BoundaryWalls N maze) :
    ∀ (moves : List (Dir × ℤ)) (st : EpisodeState),
    Interior N st.playerPos → MatDims N st.heatmap →
    (Interior N (runMoves N maze st moves).playerPos ∧
     MatDims N (runMoves N maze st moves).heatmap ∧
     matSum (runMoves N maze st moves).heatmap
       = matSum st.heatmap + countAccepted N maze st moves) := by
  intro moves
  induction moves with
  | nil => intro st h1 h2; exact ⟨h1, h2, rfl⟩
  | cons m rest ih =>
    intro st h1 h2
    obtain ⟨d, t⟩ := m
    obtain ⟨s1, s2, s3⟩ := handleMove_inv N maze st d t hb h1 h2
    obtain ⟨r1, r2, r3⟩ := ih (handleMove N maze st d t).1 s1 s2
    refine ⟨r1, r2, ?_⟩
    unfold runMoves countAccepted
    rw [r3, s3]
    omega

end StepLemmas

/-- C3: over any episode (any maze with its boundary ring walled, any
sequence of move attempts), the sum of all heatmap entries equals the
number of accepted moves: each accepted move increments exactly one
heatmap cell and collisions increment none. -/
theorem C3_heatmap_conservation (N : ℕ) (maze : Grid) (now : ℤ) (moves : List (Dir × ℤ))
    (hb : BoundaryWalls N maze) (hN : 3 ≤ N) :
    matSum (runMoves N maze (startState N maze now) moves).heatmap
      = countAccepted N maze (startState N maze now) moves := by
  have hpos : Interior N (startState N maze now).playerPos := by
    refine ⟨by norm_num [startState, startPoint], ?_, by norm_num [startState, startPoint], ?_⟩ <;>
      · show (1 : ℤ) ≤ (N : ℤ) - 2
        omega
  have hm : MatDims N (startState N maze now).heatmap := by
    constructor
    · simp [startState]
    · intro r hr
      have := List.eq_of_mem_replicate hr
      simp [this]
  have h := (runMoves_inv N maze hb moves (startState N maze now) hpos hm).2.2
  rw [h]
  have hz : matSum (startState N maze now).heatmap = 0 := by
    simp [startState, matSum, List.map_replicate, List.sum_replicate]
  rw [hz, Nat.zero_add]

/-- Witness for C3: the three-move episode on the specification's five
by five grid, all hypotheses checked by computation. -/
theorem C3_witness :
    BoundaryWalls 5 specGrid5 ∧ 3 ≤ 5 ∧
    matSum (runMoves 5 specGrid5 (startState 5 specGrid5 0) threeMoves).heatmap
      = countAccepted 5 specGrid5 (startState 5 specGrid5 0) threeMoves :=
  ⟨by decide, by decide,
    C3_heatmap_conservation 5 specGrid5 0 threeMoves (by decide) (by decide)⟩

/-- C4 counterexample: an episode with exactly three accepted moves that
ends by timeout yields a Next Game metrics record whose actual path has
length five (start, the three moves, plus the unconditionally appended
exit cell), not four as claimed. -/
theorem C4_counterexample :
    countAccepted 5 specGrid5 (startState 5 specGrid5 0) threeMoves = 3 ∧
    (nextGameMetrics 5 (timeoutState (runMoves 5 specGrid5 (startState 5 specGrid5 0) threeMoves))
        4000).actualPath.length = 5 ∧
    ¬ (nextGameMetrics 5 (timeoutState (runMoves 5 specGrid5 (startState 5 specGrid5 0) threeMoves))
        4000).actualPath.length = 4 := by
  refine ⟨by decide, by decide, by decide⟩

/-- C4 (amended): requesting the final metrics after a timeout always
produces a complete record, but its actual path holds the start cell,
one cell per accepted move, and one extra appended exit cell: its length
is the number of accepted moves plus two (five for three accepted
moves). -/
theorem C4_timeout_actualPath (N : ℕ) (maze : Grid) (now tEnd : ℤ) (moves : List (Dir × ℤ)) :
    (nextGameMetrics N (timeoutState (runMoves N maze (startState N maze now) moves))
        tEnd).actualPath.length
      = countAccepted N maze (startState N maze now) moves + 2 := by
  have h1 : (nextGameMetrics N (timeoutState (runMoves N maze (startState N maze now) moves))
      tEnd).actualPath
      = (runMoves N maze (startState N maze now) moves).actualPath ++ [exitPoint N] := rfl
  rw [h1, List.length_append]
  rw [runMoves_actualPath_length N maze moves (startState N maze now)]
  have h2 : (startState N maze now).actualPath.length = 1 := rfl
  rw [h2]
  simp
  omega

/-- C5 counterexample: a timeout with zero accepted moves makes the
Next Game efficiency calculation divide the nonzero optimal-path length
by zero, producing Infinity, not the claimed sentinel 0. -/
theorem C5_counterexample :
    (nextGameMetrics 5 (timeoutState (startState 5 specGrid5 0)) 4000).pathEfficiency
        = JsNum.inf ∧
    ¬ (nextGameMetrics 5 (timeoutState (startState 5 specGrid5 0)) 4000).pathEfficiency
        = JsNum.num 0 := by
  refine ⟨by decide, by decide⟩

/-- C5 (amended): the two-phase halves are guarded — a half with zero
moves reports speed and accuracy 0, in the Next Game record and in the
first half of the success record — but the efficiency and time-per-move
divisions of the Next Game record are not: with an empty move history
they divide by zero, yielding Infinity for a nonempty optimal path
rather than the sentinel 0. -/
theorem C5_zero_move_guards (N : ℕ) (st : EpisodeState) (t : ℤ) (p : Point)
    (h0 : st.firstHalfMetrics.moves = 0) (hmc : st.moveCount = 0)
    (hh : st.movementHistory = []) (hopt : 0 < st.optimalPath.length) :
    (nextGameMetrics N st t).performanceOverTime.firstHalf.speed = JsNum.num 0 ∧
    (nextGameMetrics N st t).performanceOverTime.firstHalf.accuracy = JsNum.num 0 ∧
    (nextGameMetrics N st t).performanceOverTime.secondHalf.speed = JsNum.num 0 ∧
    (nextGameMetrics N st t).performanceOverTime.secondHalf.accuracy = JsNum.num 0 ∧
    (successMetrics st p t).performanceOverTime.firstHalf.speed = JsNum.num 0 ∧
    (successMetrics st p t).performanceOverTime.firstHalf.accuracy = JsNum.num 0 ∧
    (nextGameMetrics N st t).pathEfficiency = JsNum.inf := by
  have hq : (0 : ℚ) < (st.optimalPath.length : ℚ) := by exact_mod_cast hopt
  refine ⟨?_, ?_, ?_, ?_, ?_, ?_, ?_⟩
  · simp [nextGameMetrics, h0]
  · simp [nextGameMetrics, h0]
  · simp [nextGameMetrics, h0, hmc]
  · simp [nextGameMetrics, h0, hmc]
  · simp [successMetrics, h0]
  · simp [successMetrics, h0]
  · simp only [nextGameMetrics, hh, List.length_nil, Nat.cast_zero, jsDiv]
    rw [if_pos trivial, if_neg hq.ne', if_pos hq]

/-- Witness for C5 (amended): the zero-move timeout state on the
specification's grid, all hypotheses checked by computation. -/
theorem C5_witness :
    (timeoutState (startState 5 specGrid5 0)).firstHalfMetrics.moves = 0 ∧
    (timeoutState (startState 5 specGrid5 0)).moveCount = 0 ∧
    (timeoutState (startState 5 specGrid5 0)).movementHistory = [] ∧
    0 < (timeoutState (startState 5 specGrid5 0)).optimalPath.length ∧
    (nextGameMetrics 5 (timeoutState (startState 5 specGrid5 0))
        4000).performanceOverTime.secondHalf.speed = JsNum.num 0 ∧
    (nextGameMetrics 5 (timeoutState (startState 5 specGrid5 0)) 4000).pathEfficiency
      = JsNum.inf := by
  refine ⟨by decide, by decide, by decide, by decide, ?_, ?_⟩
  · exact (C5_zero_move_guards 5 (timeoutState (startState 5 specGrid5 0)) 4000 startPoint
      (by decide) (by decide) (by decide) (by decide)).2.2.1
  · exact (C5_zero_move_guards 5 (timeoutState (startState 5 specGrid5 0)) 4000 startPoint
      (by decide) (by decide) (by decide) (by decide)).2.2.2.2.2.2

/-- C8: a move attempt whose destination is a wall is a pure collision:
the returned state differs from the input state only in the collision
counter (up by one) and the per-direction attempt counter of the tried
direction (up by one); position, actual path, visited set, backtrack
count and heatmap are unchanged and no metrics are emitted.  Moreover
every attempt made while playing, whatever its outcome, increments the
attempted direction's counter. -/
theorem C8_wall_collision_frame (N : ℕ) (maze : Grid) (st : EpisodeState) (d : Dir) (now : ℤ)
    (hg : st.gameState = GState.playing)
    (hw : cellAt maze (st.playerPos.add (dirVec d)) = some Cell.wall) :
    ((handleMove N maze st d now).1.playerPos = st.playerPos ∧
     (handleMove N maze st d now).1.wallCollisions = st.wallCollisions + 1 ∧
     (handleMove N maze st d now).1.actualPath = st.actualPath ∧
     (handleMove N maze st d now).1.visitedCells = st.visitedCells ∧
     (handleMove N maze st d now).1.backtrackCount = st.backtrackCount ∧
     (handleMove N maze st d now).1.heatmap = st.heatmap ∧
     (handleMove N maze st d now).1.movePatterns = bumpPattern d st.movePatterns ∧
     (handleMove N maze st d now).2 = none) ∧
    (∀ (st2 : EpisodeState) (d2 : Dir) (t2 : ℤ), st2.gameState = GState.playing →
      (handleMove N maze st2 d2 t2).1.movePatterns = bumpPattern d2 st2.movePatterns) := by
  constructor
  · rw [handleMove_wall N maze st d now hg hw]
    exact ⟨rfl, rfl, rfl, rfl, rfl, rfl, rfl, rfl⟩
  · intro st2 d2 t2 hg2
    exact handleMove_patterns N maze st2 d2 t2 hg2

/-- Witness for C8: attempting to move up from the start of the
specification's grid hits the boundary wall. -/
theorem C8_witness :
    (startState 5 specGrid5 0).gameState = GState.playing ∧
    cellAt specGrid5 ((startState 5 specGrid5 0).playerPos.add (dirVec Dir.up))
      = some Cell.wall ∧
    (handleMove 5 specGrid5 (startState 5 specGrid5 0) Dir.up 50).1.wallCollisions
      = (startState 5 specGrid5 0).wallCollisions + 1 ∧
    (handleMove 5 specGrid5 (startState 5 specGrid5 0) Dir.up 50).1.playerPos
      = (startState 5 specGrid5 0).playerPos :=
  ⟨by decide, by decide,
    (C8_wall_collision_frame 5 specGrid5 (startState 5 specGrid5 0) Dir.up 50
      (by decide) (by decide)).1.2.1,
    (C8_wall_collision_frame 5 specGrid5 (startState 5 specGrid5 0) Dir.up 50
      (by decide) (by decide)).1.1⟩

section BfsCorrectness

/-- A cell the search may stand on: inside the `N` by `N` bounds and
not a wall. -/
def openCell (N : ℕ) (maze : Grid) (p : Point) : Prop :=
  InBounds N p ∧ cellAt maze p ≠ some Cell.wall

instance (N : ℕ) (maze : Grid) (p : Point) : Decidable (openCell N maze p) := by
  unfold openCell; infer_instance

/-- One-step 4-adjacency, in terms of the search's direction list. -/
def adjStep (p q : Point) : Prop := q ∈ bfsDirections.map p.add

instance (p q : Point) : Decidable (adjStep p q) := by
  unfold adjStep; infer_instance

/-- A kernel-reducible decision procedure for adjacency chains (the
library instance for `List.Chain` is built with tactics and does not
evaluate inside `decide`). -/
def decAdjChain : (a : Point) → (l : List Point) → Decidable (List.Chain adjStep a l)
  | _, [] => isTrue List.Chain.nil
  | a, b :: l =>
    haveI := decAdjChain b l
    decidable_of_iff (adjStep a b ∧ List.Chain adjStep b l) List.chain_cons.symm

instance (priority := 2000) (a : Point) (l : List Point) :
    Decidable (List.Chain adjStep a l) := decAdjChain a l

instance (priority := 2000) (l : List Point) : Decidable (List.Chain' adjStep l) :=
  match l with
  | [] => isTrue trivial
  | a :: l2 => inferInstanceAs (Decidable (List.Chain adjStep a l2))

/-- A path the specification admits between `s` and `e`: nonempty,
starting at `s`, ending at `e`, successive cells 4-adjacent, and all
cells open. -/
def GoodPath (N : ℕ) (maze : Grid) (s e : Point) (π : List Point) : Prop :=
  π.head? = some s ∧ π.getLast? = some e ∧ π.Chain' adjStep ∧ ∀ p ∈ π, openCell N maze p

instance (N : ℕ) (maze : Grid) (s e : Point) (π : List Point) :
    Decidable (GoodPath N maze s e π) := by
  unfold GoodPath; infer_instance

/-- Some open path connects `s` to `e`. -/
def ReachableCell (N : ℕ) (maze : Grid) (s e : Point) : Prop :=
  ∃ π, GoodPath N maze s e π

/-- `π` is an open path from `s` to `e` of minimum cell count. -/
def MinGood (N : ℕ) (maze : Grid) (s e : Point) (π : List Point) : Prop :=
  GoodPath N maze s e π ∧ ∀ ρ, GoodPath N maze s e ρ → π.length ≤ ρ.length

lemma GoodPath.ne_nil {N maze s e} {π : List Point} (h : GoodPath N maze s e π) : π ≠ [] := by
  intro he
  rw [he] at h
  exact Option.noConfusion h.1

lemma GoodPath.one_le_length {N maze s e} {π : List Point} (h : GoodPath N maze s e π) :
    1 ≤ π.length :=
  List.length_pos.2 h.ne_nil

lemma GoodPath_single {N maze} {s : Point} (h : openCell N maze s) :
    GoodPath N maze s s [s] := by
  exact ⟨rfl, rfl, List.chain'_singleton s, by simpa using h⟩

lemma GoodPath_singleton_iff {N maze s e} {p : Point} :
    GoodPath N maze s e [p] ↔ p = s ∧ p = e ∧ openCell N maze p := by
  constructor
  · rintro ⟨h1, h2, _h3, h4⟩
    refine ⟨by simpa using h1, by simpa [List.getLast?] using h2, h4 p (by simp)⟩
  · rintro ⟨rfl, rfl, h⟩
    exact GoodPath_single h

lemma GoodPath_snoc {N maze s e q} {π : List Point} (h : GoodPath N maze s e π)
    (hadj : adjStep e q) (hq : openCell N maze q) :
    GoodPath N maze s q (π ++ [q]) := by
  have hne := h.ne_nil
  obtain ⟨h1, h2, h3, h4⟩ := h
  refine ⟨?_, ?_, ?_, ?_⟩
  · rw [List.head?_append_of_ne_nil _ hne]
    exact h1
  · simp [List.getLast?_concat]
  · rw [List.chain'_append]
    refine ⟨h3, List.chain'_singleton q, ?_⟩
    intro x hx y hy
    rw [h2] at hx
    simp at hx hy
    rw [← hx, ← hy]
    exact hadj
  · intro p hp
    rcases List.mem_append.1 hp with hp | hp
    · exact h4 p hp
    · simp at hp
      rw [hp]
      exact hq

lemma GoodPath_snoc_elim {N maze s e} {π : List Point} (h : GoodPath N maze s e π)
    (hlen : 2 ≤ π.length) :
    ∃ (π2 : List Point) (e2 : Point), π = π2 ++ [e] ∧ GoodPath N maze s e2 π2 ∧
      adjStep e2 e ∧ π2.length + 1 = π.length := by
  have hne : π ≠ [] := h.ne_nil
  obtain ⟨h1, h2, h3, h4⟩ := h
  have hsplit : π.dropLast ++ [π.getLast hne] = π := List.dropLast_append_getLast hne
  have hegl : π.getLast hne = e := by
    have := List.getLast?_eq_getLast π hne
    rw [this] at h2
    exact Option.some_injective _ h2
  have hdl : π.dropLast.length = π.length - 1 := List.length_dropLast π
  have hdne : π.dropLast ≠ [] := by
    intro hd
    rw [hd] at hdl
    simp at hdl
    omega
  refine ⟨π.dropLast, π.dropLast.getLast hdne, by rw [← hegl]; exact hsplit.symm, ⟨?_, ?_, ?_, ?_⟩, ?_, ?_⟩
  · rw [← hsplit] at h1
    rw [List.head?_append_of_ne_nil _ hdne] at h1
    exact h1
  · exact List.getLast?_eq_getLast _ hdne
  · rw [← hsplit] at h3
    exact (List.chain'_append.1 h3).1
  · intro p hp
    exact h4 p (List.dropLast_subset _ hp)
  · rw [← hsplit] at h3
    have := (List.chain'_append.1 h3).2.2
    have hgl : π.dropLast.getLast? = some (π.dropLast.getLast hdne) :=
      List.getLast?_eq_getLast _ hdne
    refine this _ ?_ e ?_
    · rw [hgl]; simp
    · rw [hegl]; simp
  · omega

lemma bfsOk_iff (N : ℕ) (maze : Grid) (v : List Point) (p : Point) :
    bfsOk N maze v p ↔ openCell N maze p ∧ ¬ p ∈ v := by
  unfold bfsOk openCell InBounds
  tauto

lemma bfsOk_append_iff (N : ℕ) (maze : Grid) (v : List Point) (a q : Point) (h : q ≠ a) :
    bfsOk N maze (v ++ [a]) q ↔ bfsOk N maze v q := by
  rw [bfsOk_iff, bfsOk_iff]
  simp [h]

lemma Point.add_right_injective (p : Point) : Function.Injective p.add := by
  intro d1 d2 h
  have hx := congrArg Point.x h
  have hy := congrArg Point.y h
  simp [Point.add] at hx hy
  cases d1; cases d2
  simp_all

lemma bfsDirections_map_nodup (p : Point) : (bfsDirections.map p.add).Nodup :=
  (List.nodup_map_iff (Point.add_right_injective p)).2 (by decide)

/-- The frontier expansion loop, characterised: with pairwise-distinct
candidate neighbours, it appends to the queue one entry per accepted
neighbour and appends the accepted neighbours to the visited list. -/
lemma expand_foldl (N : ℕ) (maze : Grid) (p : Point) (path : List Point) :
    ∀ (ds : List Point) (rest : List QueueItem) (v : List Point),
    (ds.map p.add).Nodup →
    List.foldl (bfsExpand N maze p path) (rest, v) ds
      = (rest ++ ((ds.map p.add).filter (fun q => decide (bfsOk N maze v q))).map
            (fun q => QueueItem.mk q (path ++ [q])),
         v ++ (ds.map p.add).filter (fun q => decide (bfsOk N maze v q))) := by
  intro ds
  induction ds with
  | nil => intro rest v _; simp
  | cons d ds ih =>
    intro rest v hnd
    rw [List.map_cons] at hnd
    have hni : ¬ p.add d ∈ ds.map p.add := (List.nodup_cons.1 hnd).1
    have hnd2 : (ds.map p.add).Nodup := (List.nodup_cons.1 hnd).2
    rw [List.foldl_cons]
    by_cases h : bfsOk N maze v (p.add d)
    · have hstep : bfsExpand N maze p path (rest, v) d
          = (rest ++ [⟨p.add d, path ++ [p.add d]⟩], v ++ [p.add d]) := by
        unfold bfsExpand
        rw [if_pos h]

      rw [hstep]
      rw [ih _ _ hnd2]
      have hfeq : (ds.map p.add).filter (fun q => decide (bfsOk N maze (v ++ [p.add d]) q))
          = (ds.map p.add).filter (fun q => decide (bfsOk N maze v q)) := by
        apply List.filter_congr
        intro q hq
        have hqa : q ≠ p.add d := by
          intro he
          rw [he] at hq
          exact hni hq
        simp only [decide_eq_decide]
        exact bfsOk_append_iff N maze v (p.add d) q hqa
      rw [hfeq]
      have hfc : ((p.add d :: ds.map p.add).filter (fun q => decide (bfsOk N maze v q)))
          = p.add d :: (ds.map p.add).filter (fun q => decide (bfsOk N maze v q)) :=
        List.filter_cons_of_pos (by simpa using h)
      simp only [List.map_cons, hfc, List.map_cons, List.append_assoc, List.singleton_append]
    · have hstep : bfsExpand N maze p path (rest, v) d = (rest, v) := by
        unfold bfsExpand
        rw [if_neg h]
      rw [hstep, ih rest v hnd2]
      have hfc : ((p.add d :: ds.map p.add).filter (fun q => decide (bfsOk N maze v q)))
          = (ds.map p.add).filter (fun q => decide (bfsOk N maze v q)) :=
        List.filter_cons_of_neg (by simpa using h)
      simp only [List.map_cons, hfc]

/-- The neighbours of `p` accepted by one run of the expansion loop
against visited list `v`. -/
def frontierNbrs (N : ℕ) (maze : Grid) (v : List Point) (p : Point) : List Point :=
  (bfsDirections.map p.add).filter (fun q => decide (bfsOk N maze v q))

lemma expand_foldl_frontier (N : ℕ) (maze : Grid) (p : Point) (path : List Point)
    (rest : List QueueItem) (v : List Point) :
    List.foldl (bfsExpand N maze p path) (rest, v) bfsDirections
      = (rest ++ (frontierNbrs N maze v p).map (fun q => QueueItem.mk q (path ++ [q])),
         v ++ frontierNbrs N maze v p) :=
  expand_foldl N maze p path bfsDirections rest v (bfsDirections_map_nodup p)

lemma frontierNbrs_nodup (N : ℕ) (maze : Grid) (v : List Point) (p : Point) :
    (frontierNbrs N maze v p).Nodup :=
  (bfsDirections_map_nodup p).filter _

lemma frontierNbrs_ok (N : ℕ) (maze : Grid) (v : List Point) (p : Point) :
    ∀ q ∈ frontierNbrs N maze v p, openCell N maze q ∧ ¬ q ∈ v ∧ adjStep p q := by
  intro q hq
  have h1 := List.of_mem_filter hq
  have h2 := List.mem_of_mem_filter hq
  rw [decide_eq_true_eq] at h1
  rw [bfsOk_iff] at h1
  exact ⟨h1.1, h1.2, h2⟩

lemma frontierNbrs_complete (N : ℕ) (maze : Grid) (v : List Point) (p : Point)
    (d : Point) (hd : d ∈ bfsDirections) (ho : openCell N maze (p.add d)) :
    p.add d ∈ v ∨ p.add d ∈ frontierNbrs N maze v p := by
  by_cases hv : p.add d ∈ v
  · exact Or.inl hv
  · refine Or.inr (List.mem_filter.2 ⟨List.mem_map_of_mem _ hd, ?_⟩)
    rw [decide_eq_true_eq, bfsOk_iff]
    exact ⟨ho, hv⟩

/-- The breadth-first search invariant: the visited list is an exact,
duplicate-free record of discovered open cells; every queue entry
carries a minimum-length open path from the start to its point; queue
entries are sorted by path length spanning at most two consecutive
lengths; every cell admitting a path no longer than the front entry's
has been discovered; expanded cells have all their open neighbours
discovered; and the end cell, once discovered, stays in the queue until
dequeued. -/
structure BfsInv (N : ℕ) (maze : Grid) (start endP : Point)
    (q : List QueueItem) (v : List Point) : Prop where
  vnd : v.Nodup
  vopen : ∀ p ∈ v, openCell N maze p
  qpts : ∀ qi ∈ q, qi.point ∈ v
  qnd : (q.map QueueItem.point).Nodup
  qpath : ∀ qi ∈ q, MinGood N maze start qi.point qi.path
  sorted : (q.map fun qi => qi.path.length).Sorted (· ≤ ·)
  bounded : ∀ qi ∈ q, ∀ hd ∈ q.head?, qi.path.length ≤ hd.path.length + 1
  covered : ∀ p ρ, GoodPath N maze start p ρ →
      (∀ hd ∈ q.head?, ρ.length ≤ hd.path.length) → p ∈ v
  closed : ∀ p ∈ v, (∀ qi ∈ q, qi.point ≠ p) →
      ∀ d ∈ bfsDirections, openCell N maze (p.add d) → p.add d ∈ v
  endq : endP ∈ v → ∃ qi ∈ q, qi.point = endP

lemma bfsInv_init (N : ℕ) (maze : Grid) (start endP : Point) (hs : openCell N maze start) :
    BfsInv N maze start endP [⟨start, [start]⟩] [start] := by
  refine ⟨?_, ?_, ?_, ?_, ?_, ?_, ?_, ?_, ?_, ?_⟩
  · exact List.nodup_singleton start
  · intro p hp; simp at hp; rw [hp]; exact hs
  · intro qi hqi; simp at hqi; rw [hqi]; simp
  · simp
  · intro qi hqi
    simp at hqi
    rw [hqi]
    exact ⟨GoodPath_single hs, fun ρ hρ => hρ.one_le_length⟩
  · simp [List.Sorted]
  · intro qi hqi hd hhd
    simp at hqi hhd
    rw [hqi, ← hhd]
    omega
  · intro p ρ hρ hlen
    have h1 : ρ.length ≤ 1 := hlen ⟨start, [start]⟩ rfl
    have h2 : 1 ≤ ρ.length := hρ.one_le_length
    have h3 : ρ.length = 1 := le_antisymm h1 h2
    obtain ⟨a, rfl⟩ := List.length_eq_one.1 h3
    obtain ⟨ha1, ha2, _⟩ := GoodPath_singleton_iff.1 hρ
    simp [← ha2, ha1]
  · intro p hp hq
    exfalso
    simp at hp
    exact hq ⟨start, [start]⟩ (by simp) (by simpa using hp.symm)
  · intro hv
    simp at hv
    exact ⟨⟨start, [start]⟩, by simp, hv.symm⟩

/-- Dequeuing a non-end entry and expanding its neighbours preserves
the invariant. -/
lemma bfsInv_step (N : ℕ) (maze : Grid) (start endP : Point)
    (qi : QueueItem) (rest : List QueueItem) (v : List Point)
    (inv : BfsInv N maze start endP (qi :: rest) v) (hne : qi.point ≠ endP) :
    BfsInv N maze start endP
      (rest ++ (frontierNbrs N maze v qi.point).map
          (fun pt => QueueItem.mk pt (qi.path ++ [pt])))
      (v ++ frontierNbrs N maze v qi.point) := by
  have hmin : MinGood N maze start qi.point qi.path := inv.qpath qi (List.mem_cons_self _ _)
  have hFok := frontierNbrs_ok N maze v qi.point
  have hFnd := frontierNbrs_nodup N maze v qi.point
  have hqiv : qi.point ∈ v := inv.qpts qi (List.mem_cons_self _ _)
  have hl1 : 1 ≤ qi.path.length := hmin.1.one_le_length
  have hsort := inv.sorted
  rw [List.map_cons] at hsort
  have hrest_sorted : (rest.map fun r => r.path.length).Sorted (· ≤ ·) :=
    hsort.of_cons
  have hrest_ge : ∀ r ∈ rest, qi.path.length ≤ r.path.length := by
    intro r hr
    exact (List.sorted_cons.1 hsort).1 _ (List.mem_map_of_mem _ hr)
  have hrest_le : ∀ r ∈ rest, r.path.length ≤ qi.path.length + 1 := fun r hr =>
    inv.bounded r (List.mem_cons_of_mem _ hr) qi rfl
  have hcov : ∀ p ρ, GoodPath N maze start p ρ → ρ.length ≤ qi.path.length → p ∈ v := by
    intro p ρ hρ hlen
    refine inv.covered p ρ hρ ?_
    intro hd hhd
    have : qi = hd := by simpa [Option.mem_def] using hhd
    rw [← this]
    exact hlen
  have hnewMin : ∀ pt ∈ frontierNbrs N maze v qi.point,
      MinGood N maze start pt (qi.path ++ [pt]) := by
    intro pt hpt
    obtain ⟨hopen, hnv, hadj⟩ := hFok pt hpt
    refine ⟨GoodPath_snoc hmin.1 hadj hopen, ?_⟩
    intro ρ hρ
    by_contra hlt
    push_neg at hlt
    rw [List.length_append, List.length_singleton] at hlt
    exact hnv (hcov pt ρ hρ (by omega))
  have hmem_len : ∀ r ∈ rest ++ (frontierNbrs N maze v qi.point).map
      (fun pt => QueueItem.mk pt (qi.path ++ [pt])),
      qi.path.length ≤ r.path.length ∧ r.path.length ≤ qi.path.length + 1 := by
    intro r hr
    rcases List.mem_append.1 hr with hr | hr
    · exact ⟨hrest_ge r hr, hrest_le r hr⟩
    · obtain ⟨pt, _hpt, rfl⟩ := List.mem_map.1 hr
      constructor <;> simp
  refine ⟨?_, ?_, ?_, ?_, ?_, ?_, ?_, ?_, ?_, ?_⟩
  · exact inv.vnd.append hFnd (fun a hav haF => (hFok a haF).2.1 hav)
  · intro p hp
    rcases List.mem_append.1 hp with hp | hp
    · exact inv.vopen p hp
    · exact (hFok p hp).1
  · intro r hr
    rcases List.mem_append.1 hr with hr | hr
    · exact List.mem_append_left _ (inv.qpts r (List.mem_cons_of_mem _ hr))
    · obtain ⟨pt, hpt, rfl⟩ := List.mem_map.1 hr
      exact List.mem_append_right _ hpt
  · rw [List.map_append]
    have hmm : ((frontierNbrs N maze v qi.point).map
        (fun pt => QueueItem.mk pt (qi.path ++ [pt]))).map QueueItem.point
        = frontierNbrs N maze v qi.point := by
      rw [List.map_map]
      exact List.map_id _
    rw [hmm]
    have hqnd := inv.qnd
    rw [List.map_cons] at hqnd
    refine (List.nodup_cons.1 hqnd).2.append hFnd ?_
    intro a ha haF
    obtain ⟨r, hr, rfl⟩ := List.mem_map.1 ha
    exact (hFok _ haF).2.1 (inv.qpts r (List.mem_cons_of_mem _ hr))
  · intro r hr
    rcases List.mem_append.1 hr with hr | hr
    · exact inv.qpath r (List.mem_cons_of_mem _ hr)
    · obtain ⟨pt, hpt, rfl⟩ := List.mem_map.1 hr
      exact hnewMin pt hpt
  · rw [List.map_append]
    rw [List.Sorted, List.pairwise_append]
    refine ⟨hrest_sorted, ?_, ?_⟩
    · have hconst : ((frontierNbrs N maze v qi.point).map
          (fun pt => QueueItem.mk pt (qi.path ++ [pt]))).map (fun r => r.path.length)
          = (frontierNbrs N maze v qi.point).map (fun _ => qi.path.length + 1) := by
        rw [List.map_map]
        apply List.map_congr_left
        intro pt _
        simp
      rw [hconst]
      clear hFok hFnd hnewMin hmem_len
      induction frontierNbrs N maze v qi.point with
      | nil => simp
      | cons a t ih =>
        rw [List.map_cons]
        refine List.Pairwise.cons ?_ ih
        intro b hb
        obtain ⟨c, _, rfl⟩ := List.mem_map.1 hb
        exact le_refl _
    · intro x hx y hy
      obtain ⟨r, hr, rfl⟩ := List.mem_map.1 hx
      obtain ⟨r2, hr2, rfl⟩ := List.mem_map.1 hy
      obtain ⟨pt, _, rfl⟩ := List.mem_map.1 hr2
      have := hrest_le r hr
      simp
      omega
  · intro r hr hd hhd
    have hhd2 : hd ∈ rest ++ (frontierNbrs N maze v qi.point).map
        (fun pt => QueueItem.mk pt (qi.path ++ [pt])) := by
      have := List.mem_of_mem_head? hhd
      exact this
    have h1 := hmem_len r hr
    have h2 := hmem_len hd hhd2
    omega
  · intro p ρ hρ hlen
    by_cases hsmall : ρ.length ≤ qi.path.length
    · exact List.mem_append_left _ (hcov p ρ hρ hsmall)
    · cases hq2 : rest ++ (frontierNbrs N maze v qi.point).map
          (fun pt => QueueItem.mk pt (qi.path ++ [pt])) with
      | nil =>
        have hrest : rest = [] := (List.append_eq_nil.1 hq2).1
        have hF : frontierNbrs N maze v qi.point = [] :=
          List.map_eq_nil_iff.1 (List.append_eq_nil.1 hq2).2
        have hall : ∀ n (p2 : Point) (ρ2 : List Point), ρ2.length = n →
            GoodPath N maze start p2 ρ2 → p2 ∈ v := by
          intro n
          induction n using Nat.strong_induction_on with
          | _ n ih =>
            intro p2 ρ2 hlen2 hρ2
            by_cases hs2 : ρ2.length ≤ qi.path.length
            · exact hcov p2 ρ2 hρ2 hs2
            · have h2 : 2 ≤ ρ2.length := by omega
              obtain ⟨π2, e2, _heq, hπ2, hadj, hlen3⟩ := GoodPath_snoc_elim hρ2 h2
              have he2 : e2 ∈ v := ih π2.length (by omega) e2 π2 rfl hπ2
              obtain ⟨d, hd, hpd⟩ := List.mem_map.1 hadj
              have hp2mem : p2 ∈ ρ2 := by
                have := hρ2.2.1
                exact List.mem_of_mem_getLast? (by rw [this]; rfl)
              have hopen : openCell N maze p2 := hρ2.2.2.2 p2 hp2mem
              rw [← hpd] at hopen ⊢
              by_cases he2qi : e2 = qi.point
              · rw [he2qi] at hopen ⊢
                rcases frontierNbrs_complete N maze v qi.point d hd hopen with h | h
                · exact h
                · rw [hF] at h
                  exact absurd h (List.not_mem_nil _)
              · refine inv.closed e2 he2 ?_ d hd hopen
                intro r hr2
                rcases List.mem_cons.1 hr2 with rfl | hr3
                · exact fun he => he2qi he.symm
                · rw [hrest] at hr3
                  exact absurd hr3 (List.not_mem_nil _)
        exact List.mem_append_left _ (hall ρ.length p ρ rfl hρ)
      | cons hd2 t =>
        have hρhd : ρ.length ≤ hd2.path.length := by
          have := hlen hd2
          rw [hq2] at this
          exact this rfl
        have hd2mem : hd2 ∈ rest ++ (frontierNbrs N maze v qi.point).map
            (fun pt => QueueItem.mk pt (qi.path ++ [pt])) := by
          rw [hq2]
          exact List.mem_cons_self _ _
        have hd2le := (hmem_len hd2 hd2mem).2
        have hρeq : ρ.length = qi.path.length + 1 := by omega
        have h2 : 2 ≤ ρ.length := by omega
        obtain ⟨π2, e2, _heq, hπ2, hadj, hlen3⟩ := GoodPath_snoc_elim hρ h2
        have he2v : e2 ∈ v := hcov e2 π2 hπ2 (by omega)
        obtain ⟨d, hd, hpd⟩ := List.mem_map.1 hadj
        have hpmem : p ∈ ρ := by
          have := hρ.2.1
          exact List.mem_of_mem_getLast? (by rw [this]; rfl)
        have hopen : openCell N maze p := hρ.2.2.2 p hpmem
        rw [← hpd] at hopen ⊢
        by_cases he2qi : e2 = qi.point
        · rw [he2qi] at hopen ⊢
          rcases frontierNbrs_complete N maze v qi.point d hd hopen with h | h
          · exact List.mem_append_left _ h
          · exact List.mem_append_right _ h
        · by_cases he2rest : ∃ r ∈ rest, r.point = e2
          · exfalso
            obtain ⟨r, hr, hrpt⟩ := he2rest
            have hminr := inv.qpath r (List.mem_cons_of_mem _ hr)
            have hrle : r.path.length ≤ π2.length := by
              refine hminr.2 π2 ?_
              rw [hrpt]
              exact hπ2
            have hrestne : rest ≠ [] := List.ne_nil_of_mem hr
            obtain ⟨r0, rest2, rfl⟩ := List.exists_cons_of_ne_nil hrestne
            have hr0 : hd2 = r0 := by
              have := congrArg List.head? hq2
              simpa using this.symm
            have hr0le : r0.path.length ≤ r.path.length := by
              rcases List.mem_cons.1 hr with rfl | hr4
              · exact le_refl _
              · have := (List.sorted_cons.1 hrest_sorted).1
                exact this _ (List.mem_map_of_mem _ hr4)
            rw [hr0] at hρhd
            omega
          · push_neg at he2rest
            refine List.mem_append_left _ (inv.closed e2 he2v ?_ d hd hopen)
            intro r hr2
            rcases List.mem_cons.1 hr2 with rfl | hr3
            · exact fun he => he2qi he.symm
            · exact he2rest r hr3
  · intro p hp hnr d hd hopen
    rcases List.mem_append.1 hp with hpv | hpF
    · by_cases hpqi : p = qi.point
      · rw [hpqi]
        rcases frontierNbrs_complete N maze v qi.point d hd (by rw [← hpqi]; exact hopen) with h | h
        · exact List.mem_append_left _ h
        · exact List.mem_append_right _ h
      · have hnot : ∀ r ∈ qi :: rest, r.point ≠ p := by
          intro r hr2
          rcases List.mem_cons.1 hr2 with rfl | hr3
          · exact fun he => hpqi he.symm
          · exact hnr r (List.mem_append_left _ hr3)
        exact List.mem_append_left _ (inv.closed p hpv hnot d hd hopen)
    · exfalso
      exact hnr (QueueItem.mk p (qi.path ++ [p]))
        (List.mem_append_right _ (List.mem_map_of_mem _ hpF)) rfl
  · intro hv
    rcases List.mem_append.1 hv with h | h
    · obtain ⟨r, hr, hrpt⟩ := inv.endq h
      rcases List.mem_cons.1 hr with rfl | hr2
      · exact absurd hrpt hne
      · exact ⟨r, List.mem_append_left _ hr2, hrpt⟩
    · exact ⟨QueueItem.mk endP (qi.path ++ [endP]),
        List.mem_append_right _ (List.mem_map_of_mem _ h), rfl⟩

/-- A duplicate-free list of in-bounds points has at most `N * N`
entries. -/
lemma inBounds_nodup_length_le (N : ℕ) (v : List Point)
    (hnd : v.Nodup) (hb : ∀ p ∈ v, InBounds N p) : v.length ≤ N * N := by
  have hmapnd : (v.map fun p => p.x.toNat + N * p.y.toNat).Nodup := by
    refine List.Nodup.map_on ?_ hnd
    intro x hx y hy hxy
    obtain ⟨hx1, hx2, hx3, hx4⟩ := hb x hx
    obtain ⟨hy1, hy2, hy3, hy4⟩ := hb y hy
    have ex : x.x.toNat < N := by omega
    have ey : y.x.toNat < N := by omega
    have hmod := congrArg (fun n => n % N) hxy
    simp only [Nat.add_mul_mod_self_left] at hmod
    rw [Nat.mod_eq_of_lt ex, Nat.mod_eq_of_lt ey] at hmod
    have hN0 : 0 < N := by omega
    have hyy : x.y.toNat = y.y.toNat := by
      have h2 : N * x.y.toNat = N * y.y.toNat := by omega
      exact Nat.eq_of_mul_eq_mul_left hN0 h2
    cases x
    cases y
    simp_all
    omega
  have hsub : ∀ n ∈ v.map (fun p => p.x.toNat + N * p.y.toNat), n ∈ Finset.range (N * N) := by
    intro n hn
    obtain ⟨p, hp, rfl⟩ := List.mem_map.1 hn
    obtain ⟨h1, h2, h3, h4⟩ := hb p hp
    rw [Finset.mem_range]
    have ex : p.x.toNat < N := by omega
    have ey : p.y.toNat + 1 ≤ N := by omega
    have hmul : N * (p.y.toNat + 1) ≤ N * N := Nat.mul_le_mul_left N ey
    have hexp : N * (p.y.toNat + 1) = N * p.y.toNat + N := by ring
    omega
  have hlen : v.length = (v.map fun p => p.x.toNat + N * p.y.toNat).length :=
    (List.length_map _ _).symm
  rw [hlen, ← List.toFinset_card_of_nodup hmapnd]
  have := Finset.card_le_card (fun n hn => hsub n (List.mem_toFinset.1 hn))
  simpa using this

/-- The search loop, run with enough fuel from an invariant state,
terminates with either the no-path signal (and then no open path
exists) or a minimum-length open path to the end cell. -/
lemma bfs_run (N : ℕ) (maze : Grid) (start endP : Point) :
    ∀ (fuel : ℕ) (q : List QueueItem) (v : List Point),
    BfsInv N maze start endP q v →
    q.length + (N * N - v.length) < fuel →
    (bfs N maze endP fuel q v = some [] ∧ ¬ ReachableCell N maze start endP) ∨
    (∃ r, bfs N maze endP fuel q v = some r ∧ MinGood N maze start endP r) := by
  intro fuel
  induction fuel with
  | zero => intro q v _ h; omega
  | succ fuel ih =>
    intro q v inv hfuel
    match q with
    | [] =>
      left
      refine ⟨rfl, ?_⟩
      rintro ⟨ρ, hρ⟩
      have hve : endP ∈ v := by
        refine inv.covered endP ρ hρ ?_
        intro hd hhd
        simp at hhd
      obtain ⟨r, hr, _⟩ := inv.endq hve
      exact absurd hr (List.not_mem_nil _)
    | qi :: rest =>
      by_cases hend : qi.point = endP
      · right
        refine ⟨qi.path, ?_, ?_⟩
        · conv_lhs => rw [bfs]
          rw [if_pos hend]
        · have := inv.qpath qi (List.mem_cons_self _ _)
          rw [hend] at this
          exact this
      · have hstep : bfs N maze endP (fuel + 1) (qi :: rest) v
            = bfs N maze endP fuel
                (rest ++ (frontierNbrs N maze v qi.point).map
                    (fun pt => QueueItem.mk pt (qi.path ++ [pt])))
                (v ++ frontierNbrs N maze v qi.point) := by
          conv_lhs => rw [bfs]
          rw [if_neg hend]
          rw [expand_foldl_frontier N maze qi.point qi.path rest v]
        have inv2 := bfsInv_step N maze start endP qi rest v inv hend
        have hvlen : (v ++ frontierNbrs N maze v qi.point).length ≤ N * N := by
          refine inBounds_nodup_length_le N _ inv2.vnd ?_
          intro p hp
          exact (inv2.vopen p hp).1
        have hrec := ih (rest ++ (frontierNbrs N maze v qi.point).map
            (fun pt => QueueItem.mk pt (qi.path ++ [pt])))
            (v ++ frontierNbrs N maze v qi.point) inv2 ?_
        · rw [hstep]
          exact hrec
        · have hlen2 : (rest ++ (frontierNbrs N maze v qi.point).map
              (fun pt => QueueItem.mk pt (qi.path ++ [pt]))).length
              = rest.length + (frontierNbrs N maze v qi.point).length := by simp
          have hlen3 : (v ++ frontierNbrs N maze v qi.point).length
              = v.length + (frontierNbrs N maze v qi.point).length := by simp
          have hq : (qi :: rest).length = rest.length + 1 := by simp
          omega

/-- `findOptimalPath`, from any open start cell: when the end is
reachable through open cells it returns a minimum-cell-count open path,
otherwise the explicit empty result. -/
lemma findOptimalPath_spec (N : ℕ) (maze : Grid) (start endP : Point)
    (hs : openCell N maze start) :
    (ReachableCell N maze start endP →
        MinGood N maze start endP (findOptimalPath N maze start endP)) ∧
    (¬ ReachableCell N maze start endP → findOptimalPath N maze start endP = []) := by
  have hN : 1 ≤ N := by
    obtain ⟨⟨h1, h2, h3, h4⟩, _⟩ := hs
    omega
  have hNN : 1 ≤ N * N := Nat.one_le_iff_ne_zero.2 (by positivity)
  have hinit := bfsInv_init N maze start endP hs
  have hrun := bfs_run N maze start endP (N * N + 1) [⟨start, [start]⟩] [start] hinit
    (by simp; omega)
  unfold findOptimalPath
  rcases hrun with ⟨heq, hnr⟩ | ⟨r, heq, hmin⟩
  · constructor
    · intro hr
      exact absurd hr hnr
    · intro _
      rw [heq]
      rfl
  · constructor
    · intro _
      rw [heq]
      exact hmin
    · intro hnr
      exact absurd ⟨r, hmin.1⟩ hnr

end BfsCorrectness

/-- C1 counterexample: on the specification's hand-built five by five
grid, the path the Finder returns between the open cells `(1,1)` and
`(3,3)` is the five-cell corridor through `(1,3)`; no three-cell path
exists between those cells, so the claimed length-3 result is
impossible. -/
theorem C1_counterexample :
    findOptimalPath 5 specGrid5 ⟨1, 1⟩ ⟨3, 3⟩
      = [⟨1, 1⟩, ⟨1, 2⟩, ⟨1, 3⟩, ⟨2, 3⟩, ⟨3, 3⟩] ∧
    (findOptimalPath 5 specGrid5 ⟨1, 1⟩ ⟨3, 3⟩).length = 5 ∧
    ¬ (findOptimalPath 5 specGrid5 ⟨1, 1⟩ ⟨3, 3⟩).length = 3 := by
  refine ⟨by decide, by decide, by decide⟩

/-- C1 (amended): for every `N` by `N` grid and every pair of open
cells between which some open path exists, `findOptimalPath` returns an
open path of minimum cell count connecting them (on the hand-built five
by five grid this is the five-cell corridor through `(1,3)`, not a
three-cell path, which cannot exist); when no path exists it returns
the explicit empty result rather than failing. -/
theorem C1_findOptimalPath_optimal (N : ℕ) (maze : Grid) (start endP : Point)
    (hdims : Dims N maze) (hs : openCell N maze start) (he : openCell N maze endP) :
    (ReachableCell N maze start endP →
      GoodPath N maze start endP (findOptimalPath N maze start endP) ∧
      ∀ ρ, GoodPath N maze start endP ρ →
        (findOptimalPath N maze start endP).length ≤ ρ.length) ∧
    (¬ ReachableCell N maze start endP → findOptimalPath N maze start endP = []) := by
  obtain ⟨h1, h2⟩ := findOptimalPath_spec N maze start endP hs
  exact ⟨fun hr => h1 hr, h2⟩

/-- Witness for C1: the five by five grid of the specification, with
the corridor through `(1,3)` as the connecting path. -/
theorem C1_witness :
    Dims 5 specGrid5 ∧ openCell 5 specGrid5 ⟨1, 1⟩ ∧ openCell 5 specGrid5 ⟨3, 3⟩ ∧
    ReachableCell 5 specGrid5 ⟨1, 1⟩ ⟨3, 3⟩ ∧
    GoodPath 5 specGrid5 ⟨1, 1⟩ ⟨3, 3⟩ (findOptimalPath 5 specGrid5 ⟨1, 1⟩ ⟨3, 3⟩) :=
  ⟨by decide, by decide, by decide,
    ⟨[⟨1, 1⟩, ⟨1, 2⟩, ⟨1, 3⟩, ⟨2, 3⟩, ⟨3, 3⟩], by decide⟩,
    ((C1_findOptimalPath_optimal 5 specGrid5 ⟨1, 1⟩ ⟨3, 3⟩ (by decide) (by decide) (by decide)).1
      ⟨[⟨1, 1⟩, ⟨1, 2⟩, ⟨1, 3⟩, ⟨2, 3⟩, ⟨3, 3⟩], by decide⟩).1⟩

section CellLemmas

/-- The grid records a non-wall cell at `p`. -/
def openIn (maze : Grid) (p : Point) : Prop :=
  ∃ c, cellAt maze p = some c ∧ c ≠ Cell.wall

instance (maze : Grid) (p : Point) : Decidable (openIn maze p) := by
  unfold openIn; infer_instance

lemma getD_nil_eq (maze : Grid) (yn : ℕ) (hy : yn < maze.length) :
    maze.getD yn [] = maze[yn] := by
  rw [List.getD_eq_getElem?_getD, List.getElem?_eq_getElem hy]
  rfl

lemma cellAt_some_of_inBounds (N : ℕ) (maze : Grid) (p : Point)
    (hd : Dims N maze) (hin : InBounds N p) : ∃ c, cellAt maze p = some c := by
  obtain ⟨h1, h2, h3, h4⟩ := hin
  unfold cellAt
  rw [if_neg (by omega)]
  have hy : p.y.toNat < maze.length := by rw [hd.1]; omega
  have hrow : maze.get? p.y.toNat = some maze[p.y.toNat] := by
    rw [List.get?_eq_getElem?]
    exact List.getElem?_eq_getElem hy
  rw [hrow]
  have hmem : maze[p.y.toNat] ∈ maze := List.getElem_mem hy
  have hxr : p.x.toNat < maze[p.y.toNat].length := by
    rw [hd.2 _ hmem]
    omega
  refine ⟨maze[p.y.toNat][p.x.toNat], ?_⟩
  show (maze[p.y.toNat]).get? p.x.toNat = some _
  rw [List.get?_eq_getElem?]
  exact List.getElem?_eq_getElem hxr

lemma cellAt_inBounds (N : ℕ) (maze : Grid) (p : Point) (c : Cell)
    (hd : Dims N maze) (hc : cellAt maze p = some c) : InBounds N p := by
  unfold cellAt at hc
  by_cases hneg : p.x < 0 ∨ p.y < 0
  · rw [if_pos hneg] at hc
    cases hc
  · rw [if_neg hneg] at hc
    push_neg at hneg
    obtain ⟨row, hrow, hcell⟩ := Option.bind_eq_some.1 hc
    rw [List.get?_eq_getElem?] at hrow
    rw [List.get?_eq_getElem?] at hcell
    obtain ⟨hy, hyeq⟩ := List.getElem?_eq_some.1 hrow
    obtain ⟨hx, _⟩ := List.getElem?_eq_some.1 hcell
    have hmem : row ∈ maze := hyeq ▸ List.getElem_mem hy
    rw [hd.1] at hy
    rw [hd.2 row hmem] at hx
    exact ⟨by omega, by omega, by omega, by omega⟩

lemma openIn_inBounds (N : ℕ) (maze : Grid) (p : Point)
    (hd : Dims N maze) (h : openIn maze p) : InBounds N p := by
  obtain ⟨c, hc, _⟩ := h
  exact cellAt_inBounds N maze p c hd hc

lemma setCell_dims (N : ℕ) (maze : Grid) (p : Point) (c : Cell) (hd : Dims N maze) :
    Dims N (setCell maze p c) := by
  unfold setCell
  split
  · exact hd
  · by_cases hy : p.y.toNat < maze.length
    · refine ⟨by rw [List.length_set]; exact hd.1, ?_⟩
      intro row hrow
      rcases List.mem_or_eq_of_mem_set hrow with h | h
      · exact hd.2 row h
      · rw [h, List.length_set, getD_nil_eq maze _ hy]
        exact hd.2 _ (List.getElem_mem hy)
    · rw [List.set_eq_of_length_le (by omega)]
      exact hd

lemma cellAt_setCell_other (maze : Grid) (p q : Point) (c : Cell) (hne : q ≠ p) :
    cellAt (setCell maze p c) q = cellAt maze q := by
  by_cases hqg : q.x < 0 ∨ q.y < 0
  · unfold cellAt
    rw [if_pos hqg, if_pos hqg]
  · unfold setCell
    by_cases hpg : p.x < 0 ∨ p.y < 0
    · rw [if_pos hpg]
    · rw [if_neg hpg]
      unfold cellAt
      rw [if_neg hqg, if_neg hqg]
      push_neg at hpg hqg
      by_cases hylt : p.y.toNat < maze.length
      · by_cases hyy : q.y.toNat = p.y.toNat
        · have hyq : q.y = p.y := by omega
          have hxne : q.x.toNat ≠ p.x.toNat := by
            have : q.x ≠ p.x := by
              intro hx
              apply hne
              cases q
              cases p
              simp_all
            omega
          rw [hyy]
          rw [List.get?_eq_getElem?, List.get?_eq_getElem?,
            List.getElem?_set_self hylt, List.getElem?_eq_getElem hylt]
          show ((maze.getD p.y.toNat []).set p.x.toNat c).get? q.x.toNat
            = maze[p.y.toNat].get? q.x.toNat
          rw [getD_nil_eq maze _ hylt, List.get?_eq_getElem?, List.get?_eq_getElem?,
            List.getElem?_set_ne (fun h => hxne h.symm)]
        · rw [List.get?_eq_getElem?, List.get?_eq_getElem?,
            List.getElem?_set_ne (fun h => hyy (h.symm))]
      · rw [List.set_eq_of_length_le (by omega)]

lemma cellAt_setCell (N : ℕ) (maze : Grid) (p : Point) (c : Cell)
    (hd : Dims N maze) (hin : InBounds N p) (q : Point) :
    cellAt (setCell maze p c) q = if q = p then some c else cellAt maze q := by
  by_cases hq : q = p
  · rw [if_pos hq, hq]
    obtain ⟨h1, h2, h3, h4⟩ := hin
    have hy : p.y.toNat < maze.length := by rw [hd.1]; omega
    have hx : p.x.toNat < maze[p.y.toNat].length := by
      rw [hd.2 _ (List.getElem_mem hy)]
      omega
    unfold setCell cellAt
    rw [if_neg (by omega), if_neg (by omega)]
    rw [List.get?_eq_getElem?, List.getElem?_set_self hy]
    show ((maze.getD p.y.toNat []).set p.x.toNat c).get? p.x.toNat = some c
    rw [getD_nil_eq maze _ hy, List.get?_eq_getElem?, List.getElem?_set_self hx]
  · rw [if_neg hq]
    exact cellAt_setCell_other maze p q c hq

/-- Writing a non-wall value at an in-bounds cell makes exactly that
cell open in addition to the previously open ones. -/
lemma openIn_setCell (N : ℕ) (maze : Grid) (p : Point) (c : Cell)
    (hd : Dims N maze) (hin : InBounds N p) (hc : c ≠ Cell.wall) (q : Point) :
    openIn (setCell maze p c) q ↔ q = p ∨ openIn maze q := by
  unfold openIn
  rw [cellAt_setCell N maze p c hd hin q]
  by_cases hq : q = p
  · rw [if_pos hq]
    simp [hq, hc]
  · rw [if_neg hq]
    simp [hq]

end CellLemmas

section LeafLemma

/-- Adding a single edge towards a previously isolated vertex keeps a
graph acyclic: a cycle would either avoid the new edge (and live in the
old graph) or pass through the isolated endpoint, whose only incident
edge is the new one. -/
lemma isAcyclic_add_leaf {Vt : Type} [DecidableEq Vt] (G G2 : SimpleGraph Vt) (u v : Vt)
    (huv : u ≠ v)
    (hadj : ∀ a b, G2.Adj a b ↔ G.Adj a b ∨ (a = u ∧ b = v) ∨ (a = v ∧ b = u))
    (hiso : ∀ w, ¬ G.Adj v w)
    (hG : G.IsAcyclic) : G2.IsAcyclic := by
  intro a c hc
  by_cases he : s(u, v) ∈ c.edges
  · have hv : v ∈ c.support := c.snd_mem_support_of_mem_edges he
    have hc2 : (c.rotate hv).IsCycle := hc.rotate hv
    cases hrot : c.rotate hv with
    | nil =>
      rw [hrot] at hc2
      exact SimpleGraph.Walk.IsCycle.not_of_nil hc2
    | cons h p =>
      rw [hrot] at hc2
      rename_i w
      have hw : w = u := by
        rcases (hadj v w).1 h with h2 | ⟨h2, _⟩ | ⟨_, h2⟩
        · exact absurd h2 (hiso w)
        · exact absurd h2.symm huv
        · exact h2
      rw [SimpleGraph.Walk.cons_isCycle_iff] at hc2
      obtain ⟨hpath, hedge⟩ := hc2
      have hvw : v ≠ w := by
        rw [hw]
        exact Ne.symm huv
      obtain ⟨x, hvx, q, hq⟩ := SimpleGraph.Walk.exists_eq_cons_of_ne hvw p.reverse
      have hx : x = u := by
        rcases (hadj v x).1 hvx with h2 | ⟨h2, _⟩ | ⟨_, h2⟩
        · exact absurd h2 (hiso x)
        · exact absurd h2.symm huv
        · exact h2
      apply hedge
      have hmem : s(v, x) ∈ p.reverse.edges := by
        rw [hq, SimpleGraph.Walk.edges_cons]
        exact List.mem_cons_self _ _
      rw [SimpleGraph.Walk.edges_reverse, List.mem_reverse] at hmem
      rw [hx, ← hw] at hmem
      exact hmem
  · have hsub : ∀ e ∈ c.edges, e ∈ G.edgeSet := by
      intro e hee
      have he2 : e ∈ G2.edgeSet := c.edges_subset_edgeSet hee
      induction e with
      | _ a1 b1 =>
        rw [SimpleGraph.mem_edgeSet] at he2 ⊢
        rcases (hadj a1 b1).1 he2 with h2 | ⟨rfl, rfl⟩ | ⟨rfl, rfl⟩
        · exact h2
        · exact absurd hee he
        · exact absurd (by rwa [Sym2.eq_swap] at hee) he
    exact hG (c.transfer G hsub) (hc.transfer hsub)

end LeafLemma

section MazeGraph

/-- The odd-odd lattice vertices of an `N` by `N` grid, the carveable
cells of the generator. -/
abbrev OddVert (N : ℕ) : Type :=
  {v : Fin N × Fin N // v.1.val % 2 = 1 ∧ v.2.val % 2 = 1}

/-- The grid point of an odd-lattice vertex (first component x, second
y). -/
def vPoint {N : ℕ} (v : OddVert N) : Point := ⟨(v.1.1.val : ℤ), (v.1.2.val : ℤ)⟩

lemma vPoint_injective (N : ℕ) : Function.Injective (vPoint (N := N)) := by
  intro u w h
  have hx := congrArg Point.x h
  have hy := congrArg Point.y h
  simp [vPoint] at hx hy
  rcases u with ⟨⟨ux, uy⟩, hu⟩
  rcases w with ⟨⟨wx, wy⟩, hw⟩
  simp_all [Fin.ext_iff]

lemma vPoint_odd {N : ℕ} (v : OddVert N) :
    (vPoint v).x % 2 = 1 ∧ (vPoint v).y % 2 = 1 := by
  rcases v with ⟨⟨vx, vy⟩, h1, h2⟩
  dsimp only at h1 h2
  constructor
  · show ((vx.val : ℤ)) % 2 = 1
    omega
  · show ((vy.val : ℤ)) % 2 = 1
    omega

lemma vPoint_lt {N : ℕ} (v : OddVert N) :
    0 ≤ (vPoint v).x ∧ (vPoint v).x < (N : ℤ) ∧ 0 ≤ (vPoint v).y ∧ (vPoint v).y < (N : ℤ) := by
  rcases v with ⟨⟨vx, vy⟩, _⟩
  have h1 := vx.isLt
  have h2 := vy.isLt
  refine ⟨?_, ?_, ?_, ?_⟩
  · show (0 : ℤ) ≤ (vx.val : ℤ)
    omega
  · show ((vx.val : ℤ)) < (N : ℤ)
    omega
  · show (0 : ℤ) ≤ (vy.val : ℤ)
    omega
  · show ((vy.val : ℤ)) < (N : ℤ)
    omega

/-- Two cells two apart along one axis. -/
def twoStep (p q : Point) : Prop :=
  (p.x = q.x ∧ (p.y = q.y + 2 ∨ q.y = p.y + 2)) ∨
  (p.y = q.y ∧ (p.x = q.x + 2 ∨ q.x = p.x + 2))

lemma twoStep_symm {p q : Point} (h : twoStep p q) : twoStep q p := by
  unfold twoStep at h ⊢
  tauto

/-- The cell halfway between two cells two apart. -/
def midP (p q : Point) : Point := ⟨(p.x + q.x) / 2, (p.y + q.y) / 2⟩

lemma midP_comm (p q : Point) : midP p q = midP q p := by
  unfold midP
  rw [Int.add_comm p.x q.x, Int.add_comm p.y q.y]

/-- The open-cell connectivity graph restricted to the odd-coordinate
cells: two carveable cells are adjacent when they are two apart along
one axis and both they and the connecting cell between them are open. -/
def mazeGraph (N : ℕ) (maze : Grid) : SimpleGraph (OddVert N) where
  Adj u w := u ≠ w ∧ twoStep (vPoint u) (vPoint w) ∧ openIn maze (vPoint u) ∧
    openIn maze (vPoint w) ∧ openIn maze (midP (vPoint u) (vPoint w))
  symm := by
    rintro u w ⟨h1, h2, h3, h4, h5⟩
    refine ⟨Ne.symm h1, twoStep_symm h2, h4, h3, ?_⟩
    rwa [midP_comm]
  loopless := fun u h => h.1 rfl

end MazeGraph

section CarveInvariant

lemma point_eq_iff (a b : Point) : a = b ↔ a.x = b.x ∧ a.y = b.y := by
  cases a
  cases b
  simp

/-- Cells strictly inside the generator's carve bounds
(`0 < c < N - 1` on both axes). -/
def CarveInterior (N : ℕ) (p : Point) : Prop :=
  0 < p.x ∧ p.x < (N : ℤ) - 1 ∧ 0 < p.y ∧ p.y < (N : ℤ) - 1

/-- Both coordinates odd. -/
def OddPt (p : Point) : Prop := p.x % 2 = 1 ∧ p.y % 2 = 1

lemma carveDirections_cases (d : Point) (hd : d ∈ carveDirections) :
    (d.x = 0 ∧ (d.y = 2 ∨ d.y = -2)) ∨ (d.y = 0 ∧ (d.x = 2 ∨ d.x = -2)) := by
  simp [carveDirections] at hd
  rcases hd with h | h | h | h <;> rw [h] <;> simp

/-- Build the odd-lattice vertex of an in-bounds odd point. -/
def toVert (N : ℕ) (p : Point) (h : InBounds N p) (ho : OddPt p) : OddVert N :=
  ⟨(⟨p.x.toNat, by obtain ⟨h1, h2, h3, h4⟩ := h; omega⟩,
    ⟨p.y.toNat, by obtain ⟨h1, h2, h3, h4⟩ := h; omega⟩),
   by obtain ⟨o1, o2⟩ := ho; obtain ⟨h1, h2, h3, h4⟩ := h; constructor <;> dsimp <;> omega⟩

lemma vPoint_toVert (N : ℕ) (p : Point) (h : InBounds N p) (ho : OddPt p) :
    vPoint (toVert N p h ho) = p := by
  obtain ⟨h1, h2, h3, h4⟩ := h
  rw [point_eq_iff]
  unfold vPoint toVert
  constructor <;> dsimp <;> omega

/-- The generator invariant: the grid is square and holds only wall or
path cells; every open cell is interior to the carve bounds and not at
even-even coordinates; every open mixed-parity cell is a connector
whose two odd neighbours along its even axis are open; the odd-cell
graph is acyclic; and every open odd cell is reachable in it from the
root `(1,1)`. -/
structure CarveInv (N : ℕ) (maze : Grid) : Prop where
  dims : Dims N maze
  pathsOnly : ∀ p c, cellAt maze p = some c → c = Cell.wall ∨ c = Cell.path
  shape : ∀ p : Point, openIn maze p → CarveInterior N p ∧ ¬ (p.x % 2 = 0 ∧ p.y % 2 = 0)
  connX : ∀ p : Point, openIn maze p → p.x % 2 = 0 →
      openIn maze ⟨p.x - 1, p.y⟩ ∧ openIn maze ⟨p.x + 1, p.y⟩
  connY : ∀ p : Point, openIn maze p → p.y % 2 = 0 →
      openIn maze ⟨p.x, p.y - 1⟩ ∧ openIn maze ⟨p.x, p.y + 1⟩
  acyclic : (mazeGraph N maze).IsAcyclic
  reach : ∀ (r u : OddVert N), vPoint r = startPoint → openIn maze (vPoint u) →
      (mazeGraph N maze).Reachable r u

/-- An open connector certifies that both its axis endpoints are open. -/
lemma midOpen_endpoints (N : ℕ) (maze : Grid) (inv : CarveInv N maze) (A B : Point)
    (hA : OddPt A) (hB : OddPt B) (hts : twoStep A B)
    (hmid : openIn maze (midP A B)) :
    openIn maze A ∧ openIn maze B := by
  obtain ⟨hax, hay⟩ := hA
  obtain ⟨hbx, hby⟩ := hB
  rcases hts with ⟨hx, hy⟩ | ⟨hy, hx⟩
  · have hconn := inv.connY (midP A B) hmid (by unfold midP; dsimp; omega)
    have hA1 : A = ⟨(midP A B).x, (midP A B).y - 1⟩ ∨ A = ⟨(midP A B).x, (midP A B).y + 1⟩ := by
      rw [point_eq_iff, point_eq_iff]
      unfold midP
      dsimp
      omega
    have hB1 : B = ⟨(midP A B).x, (midP A B).y - 1⟩ ∨ B = ⟨(midP A B).x, (midP A B).y + 1⟩ := by
      rw [point_eq_iff, point_eq_iff]
      unfold midP
      dsimp
      omega
    constructor
    · rcases hA1 with h | h <;> rw [h]
      · exact hconn.1
      · exact hconn.2
    · rcases hB1 with h | h <;> rw [h]
      · exact hconn.1
      · exact hconn.2
  · have hconn := inv.connX (midP A B) hmid (by unfold midP; dsimp; omega)
    have hA1 : A = ⟨(midP A B).x - 1, (midP A B).y⟩ ∨ A = ⟨(midP A B).x + 1, (midP A B).y⟩ := by
      rw [point_eq_iff, point_eq_iff]
      unfold midP
      dsimp
      omega
    have hB1 : B = ⟨(midP A B).x - 1, (midP A B).y⟩ ∨ B = ⟨(midP A B).x + 1, (midP A B).y⟩ := by
      rw [point_eq_iff, point_eq_iff]
      unfold midP
      dsimp
      omega
    constructor
    · rcases hA1 with h | h <;> rw [h]
      · exact hconn.1
      · exact hconn.2
    · rcases hB1 with h | h <;> rw [h]
      · exact hconn.1
      · exact hconn.2

lemma midP_facts (A B : Point) (h : twoStep A B) :
    2 * (midP A B).x = A.x + B.x ∧ 2 * (midP A B).y = A.y + B.y := by
  unfold twoStep at h
  unfold midP
  dsimp
  omega

lemma carveInterior_inBounds {N : ℕ} {p : Point} (h : CarveInterior N p) : InBounds N p := by
  obtain ⟨h1, h2, h3, h4⟩ := h
  exact ⟨by omega, by omega, by omega, by omega⟩

set_option maxHeartbeats 1000000 in
/-- An open connector of the carved pair of cells identifies the edge:
the two odd endpoints are `p` and `p + d` in one of the two orders. -/
lemma carve_mid_eq_endpoints (p d va vb : Point)
    (hdc : (d.x = 0 ∧ (d.y = 2 ∨ d.y = -2)) ∨ (d.y = 0 ∧ (d.x = 2 ∨ d.x = -2)))
    (hp1 : p.x % 2 = 1) (hp2 : p.y % 2 = 1)
    (hao : va.x % 2 = 1 ∧ va.y % 2 = 1) (hbo : vb.x % 2 = 1 ∧ vb.y % 2 = 1)
    (hts2 : twoStep va vb)
    (hx2 : (midP va vb).x = p.x + d.x / 2) (hy2 : (midP va vb).y = p.y + d.y / 2) :
    (va = p ∧ vb = p.add d) ∨ (va = p.add d ∧ vb = p) := by
  have hmfab := midP_facts _ _ hts2
  have hTx : (p.add d).x = p.x + d.x := rfl
  have hTy : (p.add d).y = p.y + d.y := rfl
  rw [point_eq_iff, point_eq_iff, point_eq_iff, point_eq_iff, hTx, hTy]
  obtain ⟨a1, a2⟩ := hao
  obtain ⟨b1, b2⟩ := hbo
  unfold twoStep at hts2
  rcases hdc with ⟨f1, f2⟩ | ⟨f1, f2⟩ <;> omega

set_option maxHeartbeats 1000000 in
/-- The connector between two odd cells is never the carved odd target
cell itself. -/
lemma carve_mid_ne_target (p d va vb : Point)
    (hdc : (d.x = 0 ∧ (d.y = 2 ∨ d.y = -2)) ∨ (d.y = 0 ∧ (d.x = 2 ∨ d.x = -2)))
    (hp1 : p.x % 2 = 1) (hp2 : p.y % 2 = 1)
    (hao : va.x % 2 = 1 ∧ va.y % 2 = 1) (hbo : vb.x % 2 = 1 ∧ vb.y % 2 = 1)
    (hts2 : twoStep va vb) :
    ¬ midP va vb = p.add d := by
  intro h
  have hmfab := midP_facts _ _ hts2
  have hx2 := congrArg Point.x h
  have hy2 := congrArg Point.y h
  have hTx : (p.add d).x = p.x + d.x := rfl
  have hTy : (p.add d).y = p.y + d.y := rfl
  rw [hTx] at hx2
  rw [hTy] at hy2
  obtain ⟨a1, a2⟩ := hao
  obtain ⟨b1, b2⟩ := hbo
  unfold twoStep at hts2
  rcases hdc with ⟨f1, f2⟩ | ⟨f1, f2⟩ <;> omega

set_option maxHeartbeats 1000000 in
/-- The carve step characterised on the odd-cell graph: the carved grid
has exactly the previous edges plus the single new edge between `p` and
`p + d`. -/
lemma carve_adj_core (N : ℕ) (maze maze2 : Grid) (p d : Point)
    (inv : CarveInv N maze) (hp : OddPt p) (hpo : openIn maze p)
    (hd : d ∈ carveDirections)
    (hTwall : cellAt maze (p.add d) = some Cell.wall)
    (hpin : InBounds N p) (hTin : InBounds N (p.add d)) (hTodd : OddPt (p.add d))
    (charAll : ∀ q, openIn maze2 q ↔
      q = Point.mk (p.x + d.x / 2) (p.y + d.y / 2) ∨ q = p.add d ∨ openIn maze q) :
    ∀ a b, (mazeGraph N maze2).Adj a b ↔
      (mazeGraph N maze).Adj a b ∨
      (a = toVert N p hpin hp ∧ b = toVert N (p.add d) hTin hTodd) ∨
      (a = toVert N (p.add d) hTin hTodd ∧ b = toVert N p hpin hp) := by
  have hdc := carveDirections_cases d hd
  have hpc := hp
  obtain ⟨hp1, hp2⟩ := hpc
  have hTx : (p.add d).x = p.x + d.x := rfl
  have hTy : (p.add d).y = p.y + d.y := rfl
  have hMx : (Point.mk (p.x + d.x / 2) (p.y + d.y / 2)).x = p.x + d.x / 2 := rfl
  have hMy : (Point.mk (p.x + d.x / 2) (p.y + d.y / 2)).y = p.y + d.y / 2 := rfl
  have hTnotopen : ¬ openIn maze (p.add d) := by
    rintro ⟨c, hc, hcw⟩
    rw [hTwall] at hc
    exact hcw (Option.some.inj hc).symm
  have hts : twoStep p (p.add d) := by
    rw [twoStep, hTx, hTy]
    rcases hdc with ⟨f1, f2⟩ | ⟨f1, f2⟩
    · left; omega
    · right; omega
  have hMmid : Point.mk (p.x + d.x / 2) (p.y + d.y / 2) = midP p (p.add d) := by
    rw [point_eq_iff, hMx, hMy]
    unfold midP
    rw [hTx, hTy]
    rcases hdc with ⟨f1, f2⟩ | ⟨f1, f2⟩ <;> constructor <;> dsimp <;> omega
  have hvpd : vPoint (toVert N p hpin hp) = p := vPoint_toVert N p hpin hp
  have hvTd : vPoint (toVert N (p.add d) hTin hTodd) = p.add d :=
    vPoint_toVert N (p.add d) hTin hTodd
  have hpT : p ≠ p.add d := by
    intro h
    rw [point_eq_iff, hTx, hTy] at h
    rcases hdc with ⟨f1, f2⟩ | ⟨f1, f2⟩ <;> omega
  have hvpT : toVert N p hpin hp ≠ toVert N (p.add d) hTin hTodd := by
    intro h
    apply hpT
    have h2 := congrArg vPoint h
    rw [hvpd, hvTd] at h2
    exact h2
  have hMpar2 : (Point.mk (p.x + d.x / 2) (p.y + d.y / 2)).x % 2 = 0 ∨
      (Point.mk (p.x + d.x / 2) (p.y + d.y / 2)).y % 2 = 0 := by
    rw [hMx, hMy]
    rcases hdc with ⟨f1, f2⟩ | ⟨f1, f2⟩ <;> omega
  intro a b
  have hao := vPoint_odd a
  have hbo := vPoint_odd b
  constructor
  · rintro ⟨hne, hts2, ho1, ho2, hom⟩
    rw [charAll] at ho1 ho2 hom
    replace ho1 : vPoint a = p.add d ∨ openIn maze (vPoint a) := by
      rcases ho1 with h | h | h
      · exfalso
        rw [h] at hao
        rcases hMpar2 with h2 | h2
        · omega
        · omega
      · exact Or.inl h
      · exact Or.inr h
    replace ho2 : vPoint b = p.add d ∨ openIn maze (vPoint b) := by
      rcases ho2 with h | h | h
      · exfalso
        rw [h] at hbo
        rcases hMpar2 with h2 | h2
        · omega
        · omega
      · exact Or.inl h
      · exact Or.inr h
    have hmidT : ¬ midP (vPoint a) (vPoint b) = p.add d :=
      carve_mid_ne_target p d (vPoint a) (vPoint b) hdc hp1 hp2 hao hbo hts2
    replace hom : midP (vPoint a) (vPoint b) = Point.mk (p.x + d.x / 2) (p.y + d.y / 2) ∨
        openIn maze (midP (vPoint a) (vPoint b)) := by
      rcases hom with h | h | h
      · exact Or.inl h
      · exact absurd h hmidT
      · exact Or.inr h
    rcases hom with homM | homO
    · right
      have hx2 := congrArg Point.x homM
      have hy2 := congrArg Point.y homM
      rw [hMx] at hx2
      rw [hMy] at hy2
      have hPT : (vPoint a = p ∧ vPoint b = p.add d) ∨
          (vPoint a = p.add d ∧ vPoint b = p) :=
        carve_mid_eq_endpoints p d (vPoint a) (vPoint b) hdc hp1 hp2 hao hbo hts2 hx2 hy2
      rcases hPT with ⟨ha, hb⟩ | ⟨ha, hb⟩
      · left
        exact ⟨vPoint_injective N (by rw [hvpd, ha]),
          vPoint_injective N (by rw [hvTd, hb])⟩
      · right
        exact ⟨vPoint_injective N (by rw [hvTd, ha]),
          vPoint_injective N (by rw [hvpd, hb])⟩
    · rcases ho1 with haT | haO
      · exfalso
        obtain ⟨hA, _⟩ := midOpen_endpoints N maze inv _ _
          ⟨hao.1, hao.2⟩ ⟨hbo.1, hbo.2⟩ hts2 homO
        rw [haT] at hA
        exact hTnotopen hA
      · rcases ho2 with hbT | hbO
        · exfalso
          obtain ⟨_, hB⟩ := midOpen_endpoints N maze inv _ _
            ⟨hao.1, hao.2⟩ ⟨hbo.1, hbo.2⟩ hts2 homO
          rw [hbT] at hB
          exact hTnotopen hB
        · exact Or.inl ⟨hne, hts2, haO, hbO, homO⟩
  · rintro (⟨hne, hts2, h3, h4, h5⟩ | ⟨rfl, rfl⟩ | ⟨rfl, rfl⟩)
    · exact ⟨hne, hts2, (charAll _).2 (Or.inr (Or.inr h3)),
        (charAll _).2 (Or.inr (Or.inr h4)), (charAll _).2 (Or.inr (Or.inr h5))⟩
    · refine ⟨hvpT, ?_, ?_, ?_, ?_⟩
      · rw [hvpd, hvTd]
        exact hts
      · rw [hvpd]
        exact (charAll p).2 (Or.inr (Or.inr hpo))
      · rw [hvTd]
        exact (charAll _).2 (Or.inr (Or.inl rfl))
      · rw [hvpd, hvTd, ← hMmid]
        exact (charAll _).2 (Or.inl rfl)
    · refine ⟨Ne.symm hvpT, ?_, ?_, ?_, ?_⟩
      · rw [hvpd, hvTd]
        exact twoStep_symm hts
      · rw [hvTd]
        exact (charAll _).2 (Or.inr (Or.inl rfl))
      · rw [hvpd]
        exact (charAll p).2 (Or.inr (Or.inr hpo))
      · rw [hvpd, hvTd, midP_comm, ← hMmid]
        exact (charAll _).2 (Or.inl rfl)

/-- Acyclicity and root reachability transfer across the carve step. -/
lemma carve_graph_core (N : ℕ) (maze maze2 : Grid) (p d : Point)
    (inv : CarveInv N maze) (hp : OddPt p) (hpo : openIn maze p)
    (hd : d ∈ carveDirections)
    (hpin : InBounds N p) (hTin : InBounds N (p.add d)) (hTodd : OddPt (p.add d))
    (hTnotopen : ¬ openIn maze (p.add d))
    (charAll : ∀ q, openIn maze2 q ↔
      q = Point.mk (p.x + d.x / 2) (p.y + d.y / 2) ∨ q = p.add d ∨ openIn maze q)
    (hGadj : ∀ a b, (mazeGraph N maze2).Adj a b ↔
      (mazeGraph N maze).Adj a b ∨
      (a = toVert N p hpin hp ∧ b = toVert N (p.add d) hTin hTodd) ∨
      (a = toVert N (p.add d) hTin hTodd ∧ b = toVert N p hpin hp)) :
    (mazeGraph N maze2).IsAcyclic ∧
    ∀ (r u : OddVert N), vPoint r = startPoint → openIn maze2 (vPoint u) →
      (mazeGraph N maze2).Reachable r u := by
  have hdc := carveDirections_cases d hd
  have hpc := hp
  obtain ⟨hp1, hp2⟩ := hpc
  have hTx : (p.add d).x = p.x + d.x := rfl
  have hTy : (p.add d).y = p.y + d.y := rfl
  have hMx : (Point.mk (p.x + d.x / 2) (p.y + d.y / 2)).x = p.x + d.x / 2 := rfl
  have hMy : (Point.mk (p.x + d.x / 2) (p.y + d.y / 2)).y = p.y + d.y / 2 := rfl
  have hvpd : vPoint (toVert N p hpin hp) = p := vPoint_toVert N p hpin hp
  have hvTd : vPoint (toVert N (p.add d) hTin hTodd) = p.add d :=
    vPoint_toVert N (p.add d) hTin hTodd
  have hpT : p ≠ p.add d := by
    intro h
    rw [point_eq_iff, hTx, hTy] at h
    rcases hdc with ⟨f1, f2⟩ | ⟨f1, f2⟩ <;> omega
  have hvpT : toVert N p hpin hp ≠ toVert N (p.add d) hTin hTodd := by
    intro h
    apply hpT
    have h2 := congrArg vPoint h
    rw [hvpd, hvTd] at h2
    exact h2
  have hMpar2 : (Point.mk (p.x + d.x / 2) (p.y + d.y / 2)).x % 2 = 0 ∨
      (Point.mk (p.x + d.x / 2) (p.y + d.y / 2)).y % 2 = 0 := by
    rw [hMx, hMy]
    rcases hdc with ⟨f1, f2⟩ | ⟨f1, f2⟩ <;> omega
  have hle : mazeGraph N maze ≤ mazeGraph N maze2 := by
    intro a b hab
    exact (hGadj a b).2 (Or.inl hab)
  constructor
  · exact isAcyclic_add_leaf (mazeGraph N maze) _ _ _ hvpT hGadj
      (by
        rintro w ⟨_, _, hopen, _, _⟩
        rw [hvTd] at hopen
        exact hTnotopen hopen)
      inv.acyclic
  · intro r u hr hu
    rw [charAll] at hu
    rcases hu with hM | hT | hOld
    · exfalso
      have := vPoint_odd u
      rw [hM] at this
      rcases hMpar2 with h2 | h2
      · omega
      · omega
    · have hu2 : u = toVert N (p.add d) hTin hTodd := vPoint_injective N (by rw [hvTd, hT])
      have hreachp : (mazeGraph N maze).Reachable r (toVert N p hpin hp) :=
        inv.reach r _ hr (by rw [hvpd]; exact hpo)
      have hedge := (hGadj (toVert N p hpin hp) (toVert N (p.add d) hTin hTodd)).2
        (Or.inr (Or.inl ⟨rfl, rfl⟩))
      rw [hu2]
      exact SimpleGraph.Reachable.trans (SimpleGraph.Reachable.mono hle hreachp)
        hedge.reachable
    · exact SimpleGraph.Reachable.mono hle (inv.reach r u hr hOld)

/-- The shape invariant transfers across the carve step. -/
lemma carve_shape_core (N : ℕ) (maze maze2 : Grid) (p d : Point)
    (inv : CarveInv N maze) (hp : OddPt p) (hpo : openIn maze p)
    (hd : d ∈ carveDirections)
    (hTint : CarveInterior N (p.add d))
    (charAll : ∀ q, openIn maze2 q ↔
      q = Point.mk (p.x + d.x / 2) (p.y + d.y / 2) ∨ q = p.add d ∨ openIn maze q) :
    ∀ q : Point, openIn maze2 q → CarveInterior N q ∧ ¬ (q.x % 2 = 0 ∧ q.y % 2 = 0) := by
  have hdc := carveDirections_cases d hd
  have hpc := hp
  obtain ⟨hp1, hp2⟩ := hpc
  obtain ⟨hi1, hi2, hi3, hi4⟩ := (inv.shape p hpo).1
  obtain ⟨ht1, ht2, ht3, ht4⟩ := hTint
  have hTx : (p.add d).x = p.x + d.x := rfl
  have hTy : (p.add d).y = p.y + d.y := rfl
  have hMx : (Point.mk (p.x + d.x / 2) (p.y + d.y / 2)).x = p.x + d.x / 2 := rfl
  have hMy : (Point.mk (p.x + d.x / 2) (p.y + d.y / 2)).y = p.y + d.y / 2 := rfl
  have hMint : CarveInterior N (Point.mk (p.x + d.x / 2) (p.y + d.y / 2)) := by
    rw [CarveInterior, hMx, hMy]
    rcases hdc with ⟨f1, f2⟩ | ⟨f1, f2⟩ <;>
      refine ⟨by omega, by omega, by omega, by omega⟩
  intro q hq
  rw [charAll] at hq
  rcases hq with rfl | rfl | hq
  · refine ⟨hMint, ?_⟩
    rw [hMx, hMy]
    rcases hdc with ⟨f1, f2⟩ | ⟨f1, f2⟩ <;> omega
  · refine ⟨⟨ht1, ht2, ht3, ht4⟩, ?_⟩
    rw [hTx, hTy]
    rcases hdc with ⟨f1, f2⟩ | ⟨f1, f2⟩ <;> omega
  · exact inv.shape q hq

/-- The x-axis connector invariant transfers across the carve step. -/
lemma carve_connX_core (N : ℕ) (maze maze2 : Grid) (p d : Point)
    (inv : CarveInv N maze) (hp : OddPt p) (hpo : openIn maze p)
    (hd : d ∈ carveDirections)
    (charAll : ∀ q, openIn maze2 q ↔
      q = Point.mk (p.x + d.x / 2) (p.y + d.y / 2) ∨ q = p.add d ∨ openIn maze q) :
    ∀ q : Point, openIn maze2 q → q.x % 2 = 0 →
      openIn maze2 ⟨q.x - 1, q.y⟩ ∧ openIn maze2 ⟨q.x + 1, q.y⟩ := by
  have hdc := carveDirections_cases d hd
  have hpc := hp
  obtain ⟨hp1, hp2⟩ := hpc
  have hTx : (p.add d).x = p.x + d.x := rfl
  have hTy : (p.add d).y = p.y + d.y := rfl
  have hMx : (Point.mk (p.x + d.x / 2) (p.y + d.y / 2)).x = p.x + d.x / 2 := rfl
  have hMy : (Point.mk (p.x + d.x / 2) (p.y + d.y / 2)).y = p.y + d.y / 2 := rfl
  intro q hq hqx
  rw [charAll] at hq
  rcases hq with rfl | rfl | hq
  · rw [hMx] at hqx
    rcases hdc with ⟨f1, f2⟩ | ⟨f1, f2⟩
    · exfalso
      omega
    · have he1 : (Point.mk ((Point.mk (p.x + d.x / 2) (p.y + d.y / 2)).x - 1)
          (Point.mk (p.x + d.x / 2) (p.y + d.y / 2)).y = p ∧
          Point.mk ((Point.mk (p.x + d.x / 2) (p.y + d.y / 2)).x + 1)
          (Point.mk (p.x + d.x / 2) (p.y + d.y / 2)).y = p.add d) ∨
          (Point.mk ((Point.mk (p.x + d.x / 2) (p.y + d.y / 2)).x - 1)
          (Point.mk (p.x + d.x / 2) (p.y + d.y / 2)).y = p.add d ∧
          Point.mk ((Point.mk (p.x + d.x / 2) (p.y + d.y / 2)).x + 1)
          (Point.mk (p.x + d.x / 2) (p.y + d.y / 2)).y = p) := by
        rw [point_eq_iff, point_eq_iff, point_eq_iff, point_eq_iff, hTx, hTy]
        dsimp
        omega
      rcases he1 with ⟨e1, e2⟩ | ⟨e1, e2⟩
      · rw [e1, e2]
        exact ⟨(charAll p).2 (Or.inr (Or.inr hpo)), (charAll _).2 (Or.inr (Or.inl rfl))⟩
      · rw [e1, e2]
        exact ⟨(charAll _).2 (Or.inr (Or.inl rfl)), (charAll p).2 (Or.inr (Or.inr hpo))⟩
  · exfalso
    rw [hTx] at hqx
    rcases hdc with ⟨f1, f2⟩ | ⟨f1, f2⟩ <;> omega
  · obtain ⟨e1, e2⟩ := inv.connX q hq hqx
    exact ⟨(charAll _).2 (Or.inr (Or.inr e1)), (charAll _).2 (Or.inr (Or.inr e2))⟩

/-- The y-axis connector invariant transfers across the carve step. -/
lemma carve_connY_core (N : ℕ) (maze maze2 : Grid) (p d : Point)
    (inv : CarveInv N maze) (hp : OddPt p) (hpo : openIn maze p)
    (hd : d ∈ carveDirections)
    (charAll : ∀ q, openIn maze2 q ↔
      q = Point.mk (p.x + d.x / 2) (p.y + d.y / 2) ∨ q = p.add d ∨ openIn maze q) :
    ∀ q : Point, openIn maze2 q → q.y % 2 = 0 →
      openIn maze2 ⟨q.x, q.y - 1⟩ ∧ openIn maze2 ⟨q.x, q.y + 1⟩ := by
  have hdc := carveDirections_cases d hd
  have hpc := hp
  obtain ⟨hp1, hp2⟩ := hpc
  have hTx : (p.add d).x = p.x + d.x := rfl
  have hTy : (p.add d).y = p.y + d.y := rfl
  have hMx : (Point.mk (p.x + d.x / 2) (p.y + d.y / 2)).x = p.x + d.x / 2 := rfl
  have hMy : (Point.mk (p.x + d.x / 2) (p.y + d.y / 2)).y = p.y + d.y / 2 := rfl
  intro q hq hqy
  rw [charAll] at hq
  rcases hq with rfl | rfl | hq
  · rw [hMy] at hqy
    rcases hdc with ⟨f1, f2⟩ | ⟨f1, f2⟩
    · have he1 : (Point.mk (Point.mk (p.x + d.x / 2) (p.y + d.y / 2)).x
          ((Point.mk (p.x + d.x / 2) (p.y + d.y / 2)).y - 1) = p ∧
          Point.mk (Point.mk (p.x + d.x / 2) (p.y + d.y / 2)).x
          ((Point.mk (p.x + d.x / 2) (p.y + d.y / 2)).y + 1) = p.add d) ∨
          (Point.mk (Point.mk (p.x + d.x / 2) (p.y + d.y / 2)).x
          ((Point.mk (p.x + d.x / 2) (p.y + d.y / 2)).y - 1) = p.add d ∧
          Point.mk (Point.mk (p.x + d.x / 2) (p.y + d.y / 2)).x
          ((Point.mk (p.x + d.x / 2) (p.y + d.y / 2)).y + 1) = p) := by
        rw [point_eq_iff, point_eq_iff, point_eq_iff, point_eq_iff, hTx, hTy]
        dsimp
        omega
      rcases he1 with ⟨e1, e2⟩ | ⟨e1, e2⟩
      · rw [e1, e2]
        exact ⟨(charAll p).2 (Or.inr (Or.inr hpo)), (charAll _).2 (Or.inr (Or.inl rfl))⟩
      · rw [e1, e2]
        exact ⟨(charAll _).2 (Or.inr (Or.inl rfl)), (charAll p).2 (Or.inr (Or.inr hpo))⟩
    · exfalso
      omega
  · exfalso
    rw [hTy] at hqy
    rcases hdc with ⟨f1, f2⟩ | ⟨f1, f2⟩ <;> omega
  · obtain ⟨e1, e2⟩ := inv.connY q hq hqy
    exact ⟨(charAll _).2 (Or.inr (Or.inr e1)), (charAll _).2 (Or.inr (Or.inr e2))⟩

/-- Core of the carve-step preservation argument, stated over an
abstract carved grid `maze2` characterised by its open set. -/
lemma carveStep_inv_core (N : ℕ) (maze maze2 : Grid) (p d : Point)
    (inv : CarveInv N maze) (hp : OddPt p) (hpo : openIn maze p)
    (hd : d ∈ carveDirections)
    (hTint : CarveInterior N (p.add d))
    (hTwall : cellAt maze (p.add d) = some Cell.wall)
    (hdims2 : Dims N maze2)
    (hpaths2 : ∀ q c, cellAt maze2 q = some c → c = Cell.wall ∨ c = Cell.path)
    (charAll : ∀ q, openIn maze2 q ↔
      q = Point.mk (p.x + d.x / 2) (p.y + d.y / 2) ∨ q = p.add d ∨ openIn maze q) :
    CarveInv N maze2 ∧ (∀ q, openIn maze q → openIn maze2 q) ∧
    openIn maze2 (p.add d) ∧ OddPt (p.add d) := by
  have hdc := carveDirections_cases d hd
  have hTx : (p.add d).x = p.x + d.x := rfl
  have hTy : (p.add d).y = p.y + d.y := rfl
  have hpc := hp
  obtain ⟨hp1, hp2⟩ := hpc
  have hTodd : OddPt (p.add d) := by
    constructor
    · rw [hTx]; rcases hdc with ⟨f1, f2⟩ | ⟨f1, f2⟩ <;> omega
    · rw [hTy]; rcases hdc with ⟨f1, f2⟩ | ⟨f1, f2⟩ <;> omega
  have hTin : InBounds N (p.add d) := carveInterior_inBounds hTint
  have hpin : InBounds N p := carveInterior_inBounds (inv.shape p hpo).1
  have hTnotopen : ¬ openIn maze (p.add d) := by
    rintro ⟨c, hc, hcw⟩
    rw [hTwall] at hc
    exact hcw (Option.some.inj hc).symm
  have hGadj := carve_adj_core N maze maze2 p d inv hp hpo hd hTwall hpin hTin hTodd charAll
  obtain ⟨hacyc, hreach⟩ :=
    carve_graph_core N maze maze2 p d inv hp hpo hd hpin hTin hTodd hTnotopen charAll hGadj
  refine ⟨⟨hdims2, hpaths2,
    carve_shape_core N maze maze2 p d inv hp hpo hd hTint charAll,
    carve_connX_core N maze maze2 p d inv hp hpo hd charAll,
    carve_connY_core N maze maze2 p d inv hp hpo hd charAll,
    hacyc, hreach⟩, ?_, ?_, hTodd⟩
  · intro q hq
    exact (charAll q).2 (Or.inr (Or.inr hq))
  · exact (charAll _).2 (Or.inr (Or.inl rfl))

/-- One carve action (opening the two-step neighbour `p + d` and the
connecting cell halfway) preserves the generator invariant, only grows
the open set, opens the neighbour, the neighbour is a carveable cell,
and the new open set is exactly the old one plus the two carved
cells. -/
lemma carveStep_inv (N : ℕ) (maze : Grid) (p d : Point)
    (inv : CarveInv N maze) (hp : OddPt p) (hpo : openIn maze p)
    (hd : d ∈ carveDirections)
    (hTint : CarveInterior N (p.add d))
    (hTwall : cellAt maze (p.add d) = some Cell.wall) :
    CarveInv N (setCell (setCell maze (p.add d) Cell.path)
        (Point.mk (p.x + d.x / 2) (p.y + d.y / 2)) Cell.path) ∧
    (∀ q, openIn maze q → openIn (setCell (setCell maze (p.add d) Cell.path)
        (Point.mk (p.x + d.x / 2) (p.y + d.y / 2)) Cell.path) q) ∧
    openIn (setCell (setCell maze (p.add d) Cell.path)
        (Point.mk (p.x + d.x / 2) (p.y + d.y / 2)) Cell.path) (p.add d) ∧
    OddPt (p.add d) ∧
    (∀ q, openIn (setCell (setCell maze (p.add d) Cell.path)
        (Point.mk (p.x + d.x / 2) (p.y + d.y / 2)) Cell.path) q ↔
      q = Point.mk (p.x + d.x / 2) (p.y + d.y / 2) ∨ q = p.add d ∨ openIn maze q) := by
  have hdc := carveDirections_cases d hd
  have hpint := (inv.shape p hpo).1
  obtain ⟨hi1, hi2, hi3, hi4⟩ := hpint
  obtain ⟨ht1, ht2, ht3, ht4⟩ := hTint
  have hTin : InBounds N (p.add d) := carveInterior_inBounds ⟨ht1, ht2, ht3, ht4⟩
  have hMx : (Point.mk (p.x + d.x / 2) (p.y + d.y / 2)).x = p.x + d.x / 2 := rfl
  have hMy : (Point.mk (p.x + d.x / 2) (p.y + d.y / 2)).y = p.y + d.y / 2 := rfl
  have hMin : InBounds N (Point.mk (p.x + d.x / 2) (p.y + d.y / 2)) := by
    rw [InBounds, hMx, hMy]
    rcases hdc with ⟨f1, f2⟩ | ⟨f1, f2⟩ <;>
      refine ⟨by omega, by omega, by omega, by omega⟩
  have hdims1 : Dims N (setCell maze (p.add d) Cell.path) :=
    setCell_dims N maze _ _ inv.dims
  have hdims2 : Dims N (setCell (setCell maze (p.add d) Cell.path)
      (Point.mk (p.x + d.x / 2) (p.y + d.y / 2)) Cell.path) :=
    setCell_dims N _ _ _ hdims1
  have char1 : ∀ q, openIn (setCell maze (p.add d) Cell.path) q ↔
      q = p.add d ∨ openIn maze q :=
    openIn_setCell N maze (p.add d) Cell.path inv.dims hTin (by simp)
  have char2 : ∀ q, openIn (setCell (setCell maze (p.add d) Cell.path)
      (Point.mk (p.x + d.x / 2) (p.y + d.y / 2)) Cell.path) q ↔
      q = Point.mk (p.x + d.x / 2) (p.y + d.y / 2) ∨
        openIn (setCell maze (p.add d) Cell.path) q :=
    openIn_setCell N _ _ Cell.path hdims1 hMin (by simp)
  have hchar : ∀ q, openIn (setCell (setCell maze (p.add d) Cell.path)
      (Point.mk (p.x + d.x / 2) (p.y + d.y / 2)) Cell.path) q ↔
      q = Point.mk (p.x + d.x / 2) (p.y + d.y / 2) ∨ q = p.add d ∨ openIn maze q := by
    intro q
    rw [char2, char1]
  have hpaths : ∀ q c, cellAt (setCell (setCell maze (p.add d) Cell.path)
      (Point.mk (p.x + d.x / 2) (p.y + d.y / 2)) Cell.path) q = some c →
      c = Cell.wall ∨ c = Cell.path := by
    intro q c hc
    rw [cellAt_setCell N _ _ Cell.path hdims1 hMin q] at hc
    by_cases hqM : q = Point.mk (p.x + d.x / 2) (p.y + d.y / 2)
    · rw [if_pos hqM] at hc
      exact Or.inr (Option.some.inj hc).symm
    · rw [if_neg hqM] at hc
      rw [cellAt_setCell N maze _ Cell.path inv.dims hTin q] at hc
      by_cases hqT : q = p.add d
      · rw [if_pos hqT] at hc
        exact Or.inr (Option.some.inj hc).symm
      · rw [if_neg hqT] at hc
        exact inv.pathsOnly q c hc
  obtain ⟨g1, g2, g3, g4⟩ := carveStep_inv_core N maze _ p d inv hp hpo hd
    ⟨ht1, ht2, ht3, ht4⟩ hTwall hdims2 hpaths hchar
  exact ⟨g1, g2, g3, g4, hchar⟩

lemma list_set_get_self {α : Type} : ∀ (l : List α) (n : ℕ) (a : α),
    l.get? n = some a → l.set n a = l
  | [], _, _, h => by cases h
  | b :: l, 0, a, h => by
    rw [List.get?_cons_zero] at h
    rw [List.set_cons_zero]
    rw [Option.some.inj h]
  | b :: l, n + 1, a, h => by
    rw [List.get?_cons_succ] at h
    rw [List.set_cons_succ]
    rw [list_set_get_self l n a h]

/-- Writing back the value a cell already holds leaves the grid
unchanged. -/
lemma setCell_eq_self (maze : Grid) (p : Point) (c : Cell)
    (hc : cellAt maze p = some c) : setCell maze p c = maze := by
  unfold cellAt at hc
  by_cases hneg : p.x < 0 ∨ p.y < 0
  · rw [if_pos hneg] at hc
    cases hc
  · rw [if_neg hneg] at hc
    obtain ⟨row, hrow, hcell⟩ := Option.bind_eq_some.1 hc
    unfold setCell
    rw [if_neg hneg]
    have hrow2 := hrow
    rw [List.get?_eq_getElem?] at hrow2
    obtain ⟨hy, hyeq⟩ := List.getElem?_eq_some.1 hrow2
    have hrowD : maze.getD p.y.toNat [] = row := by
      rw [getD_nil_eq maze _ hy]
      exact hyeq
    rw [hrowD, list_set_get_self row _ c hcell, list_set_get_self maze _ row hrow]

/-- During carving every open cell holds the path glyph. -/
lemma cellAt_path_of_open (N : ℕ) (maze : Grid) (p : Point)
    (inv : CarveInv N maze) (h : openIn maze p) : cellAt maze p = some Cell.path := by
  obtain ⟨c, hc, hcw⟩ := h
  rcases inv.pathsOnly p c hc with h1 | h1
  · exact absurd h1 hcw
  · rw [hc, h1]

/-- The generator invariant and open-set monotonicity pass through the
direction loop, given that they pass through the recursive carve
calls at the same fuel. -/
lemma carveLoop_inv_of (N : ℕ) (σ : ℕ → List Point) (fuel : ℕ)
    (hP : ∀ (maze : Grid) (k : ℕ) (p : Point), CarveInv N maze → OddPt p → openIn maze p →
      CarveInv N (carvePath N σ fuel maze k p).1 ∧
      ∀ q, openIn maze q → openIn (carvePath N σ fuel maze k p).1 q) :
    ∀ (ds : List Point) (maze : Grid) (k : ℕ) (p : Point),
      (∀ d ∈ ds, d ∈ carveDirections) → CarveInv N maze → OddPt p → openIn maze p →
      CarveInv N (carveLoop N σ fuel maze k p ds).1 ∧
      ∀ q, openIn maze q → openIn (carveLoop N σ fuel maze k p ds).1 q := by
  intro ds
  induction ds with
  | nil =>
    intro maze k p _ inv _ _
    have heq : carveLoop N σ fuel maze k p [] = (maze, k) := by
      simp only [carveLoop]
    rw [heq]
    exact ⟨inv, fun q hq => hq⟩
  | cons d ds ih =>
    intro maze k p hsub inv hodd hopen
    have hd : d ∈ carveDirections := hsub d (List.mem_cons_self d ds)
    have hds : ∀ x ∈ ds, x ∈ carveDirections := fun x hx => hsub x (List.mem_cons_of_mem d hx)
    by_cases hcond : 0 < (p.add d).x ∧ (p.add d).x < (N : ℤ) - 1 ∧ 0 < (p.add d).y ∧
        (p.add d).y < (N : ℤ) - 1 ∧ cellAt maze (p.add d) = some Cell.wall
    · have heq : carveLoop N σ fuel maze k p (d :: ds)
          = carveLoop N σ fuel
              (carvePath N σ fuel (setCell (setCell maze (p.add d) Cell.path)
                (Point.mk (p.x + d.x / 2) (p.y + d.y / 2)) Cell.path) k (p.add d)).1
              (carvePath N σ fuel (setCell (setCell maze (p.add d) Cell.path)
                (Point.mk (p.x + d.x / 2) (p.y + d.y / 2)) Cell.path) k (p.add d)).2
              p ds := by
        simp only [carveLoop]
        rw [if_pos hcond]
      obtain ⟨h1, h2, h3, h4, h5⟩ := hcond
      obtain ⟨inv2, mono2, hopen2, hodd2, _⟩ :=
        carveStep_inv N maze p d inv hodd hopen hd ⟨h1, h2, h3, h4⟩ h5
      obtain ⟨inv3, mono3⟩ := hP _ k (p.add d) inv2 hodd2 hopen2
      obtain ⟨inv4, mono4⟩ := ih _ _ p hds inv3 hodd (mono3 p (mono2 p hopen))
      rw [heq]
      exact ⟨inv4, fun q hq => mono4 q (mono3 q (mono2 q hq))⟩
    · have heq : carveLoop N σ fuel maze k p (d :: ds) = carveLoop N σ fuel maze k p ds := by
        simp only [carveLoop]
        rw [if_neg hcond]
      rw [heq]
      exact ih maze k p hds inv hodd hopen

/-- The generator invariant and open-set monotonicity pass through the
carve recursion at any fuel, for any direction source drawing from the
four carve directions. -/
lemma carvePath_inv (N : ℕ) (σ : ℕ → List Point)
    (hσ : ∀ k, ∀ d ∈ σ k, d ∈ carveDirections) :
    ∀ (fuel : ℕ) (maze : Grid) (k : ℕ) (p : Point),
      CarveInv N maze → OddPt p → openIn maze p →
      CarveInv N (carvePath N σ fuel maze k p).1 ∧
      ∀ q, openIn maze q → openIn (carvePath N σ fuel maze k p).1 q := by
  intro fuel
  induction fuel with
  | zero =>
    intro maze k p inv _ _
    have heq : carvePath N σ 0 maze k p = (maze, k) := by
      simp only [carvePath]
    rw [heq]
    exact ⟨inv, fun q hq => hq⟩
  | succ f ih =>
    intro maze k p inv hodd hopen
    have hmz : setCell maze p Cell.path = maze :=
      setCell_eq_self maze p Cell.path (cellAt_path_of_open N maze p inv hopen)
    have heq : carvePath N σ (f + 1) maze k p = carveLoop N σ f maze (k + 1) p (σ k) := by
      simp only [carvePath]
      rw [hmz]
    rw [heq]
    exact carveLoop_inv_of N σ f ih (σ k) maze (k + 1) p (hσ k) inv hodd hopen

/-- The odd-interior wall cells still to be carved, as grid
coordinates. -/
def oddWalls (N : ℕ) (maze : Grid) : Finset (ℕ × ℕ) :=
  (Finset.range N ×ˢ Finset.range N).filter
    (fun q => q.1 % 2 = 1 ∧ q.2 % 2 = 1 ∧
      cellAt maze (Point.mk (q.1 : ℤ) (q.2 : ℤ)) = some Cell.wall)

/-- The number of odd wall cells left, the measure that each carve
action strictly decreases. -/
def oddWallCount (N : ℕ) (maze : Grid) : ℕ := (oddWalls N maze).card

lemma oddWalls_mono (N : ℕ) (maze maze2 : Grid) (hd : Dims N maze)
    (hmono : ∀ q, openIn maze q → openIn maze2 q) :
    oddWalls N maze2 ⊆ oddWalls N maze := by
  intro q hq
  rw [oddWalls, Finset.mem_filter, Finset.mem_product] at hq ⊢
  obtain ⟨⟨hx, hy⟩, ho1, ho2, hw⟩ := hq
  rw [Finset.mem_range] at hx hy
  refine ⟨⟨Finset.mem_range.2 hx, Finset.mem_range.2 hy⟩, ho1, ho2, ?_⟩
  have hin : InBounds N (Point.mk (q.1 : ℤ) (q.2 : ℤ)) :=
    ⟨Int.ofNat_nonneg _, Int.ofNat_lt.2 hx, Int.ofNat_nonneg _, Int.ofNat_lt.2 hy⟩
  obtain ⟨c, hc⟩ := cellAt_some_of_inBounds N maze _ hd hin
  by_cases hcw : c = Cell.wall
  · rw [hc, hcw]
  · exfalso
    obtain ⟨c2, hc2, hc2w⟩ := hmono _ ⟨c, hc, hcw⟩
    rw [hw] at hc2
    exact hc2w (Option.some.inj hc2).symm

lemma oddWallCount_le (N : ℕ) (maze maze2 : Grid) (hd : Dims N maze)
    (hmono : ∀ q, openIn maze q → openIn maze2 q) :
    oddWallCount N maze2 ≤ oddWallCount N maze :=
  Finset.card_le_card (oddWalls_mono N maze maze2 hd hmono)

/-- Opening an odd wall cell strictly decreases the measure. -/
lemma oddWallCount_lt (N : ℕ) (maze maze2 : Grid) (T : Point)
    (hd : Dims N maze)
    (hmono : ∀ q, openIn maze q → openIn maze2 q)
    (hTin : InBounds N T) (hTodd : OddPt T)
    (hTwall : cellAt maze T = some Cell.wall)
    (hTopen : openIn maze2 T) :
    oddWallCount N maze2 < oddWallCount N maze := by
  have hsub := oddWalls_mono N maze maze2 hd hmono
  obtain ⟨g1, g2, g3, g4⟩ := hTin
  obtain ⟨o1, o2⟩ := hTodd
  have hTeq : Point.mk ((T.x.toNat : ℕ) : ℤ) ((T.y.toNat : ℕ) : ℤ) = T := by
    rw [point_eq_iff]
    constructor <;> dsimp <;> omega
  have hTmem : (T.x.toNat, T.y.toNat) ∈ oddWalls N maze := by
    rw [oddWalls, Finset.mem_filter, Finset.mem_product]
    refine ⟨⟨Finset.mem_range.2 (by omega), Finset.mem_range.2 (by omega)⟩,
      by omega, by omega, ?_⟩
    rw [hTeq]
    exact hTwall
  have hTnot : (T.x.toNat, T.y.toNat) ∉ oddWalls N maze2 := by
    rw [oddWalls, Finset.mem_filter]
    rintro ⟨_, _, _, hw⟩
    rw [hTeq] at hw
    obtain ⟨c, hc, hcw⟩ := hTopen
    rw [hw] at hc
    exact hcw (Option.some.inj hc).symm
  exact Finset.card_lt_card
    (Finset.ssubset_def.2 ⟨hsub, fun hsup => hTnot (hsup hTmem)⟩)

lemma oddWallCount_le_sq (N : ℕ) (maze : Grid) : oddWallCount N maze ≤ N * N := by
  have h1 : (oddWalls N maze).card ≤ (Finset.range N ×ˢ Finset.range N).card :=
    Finset.card_filter_le _ _
  rw [Finset.card_product, Finset.card_range] at h1
  exact h1

/-- Every in-range two-step neighbour of `p` has been opened. -/
def NbrsDone (N : ℕ) (maze : Grid) (p : Point) : Prop :=
  ∀ d ∈ carveDirections, CarveInterior N (p.add d) → openIn maze (p.add d)

lemma NbrsDone_mono {N : ℕ} {maze maze2 : Grid} {p : Point}
    (hmono : ∀ q, openIn maze q → openIn maze2 q)
    (h : NbrsDone N maze p) : NbrsDone N maze2 p :=
  fun d hd hint => hmono _ (h d hd hint)

/-- Spanning bookkeeping through the direction loop: after the loop,
every in-range direction already examined leads to an open cell, and
every open odd cell was either open before the loop or has all its
in-range neighbours opened. -/
lemma carveLoop_spanning_of (N : ℕ) (σ : ℕ → List Point) (fuel : ℕ)
    (hσ : ∀ k, ∀ d ∈ σ k, d ∈ carveDirections)
    (hP : ∀ (maze : Grid) (k : ℕ) (p : Point), CarveInv N maze → OddPt p → openIn maze p →
      oddWallCount N maze < fuel →
      NbrsDone N (carvePath N σ fuel maze k p).1 p ∧
      ∀ q, OddPt q → openIn (carvePath N σ fuel maze k p).1 q →
        (openIn maze q ∧ q ≠ p) ∨ NbrsDone N (carvePath N σ fuel maze k p).1 q) :
    ∀ (ds : List Point) (maze : Grid) (k : ℕ) (p : Point),
      (∀ d ∈ ds, d ∈ carveDirections) → CarveInv N maze → OddPt p → openIn maze p →
      oddWallCount N maze ≤ fuel →
      (∀ d ∈ ds, CarveInterior N (p.add d) →
        openIn (carveLoop N σ fuel maze k p ds).1 (p.add d)) ∧
      ∀ q, OddPt q → openIn (carveLoop N σ fuel maze k p ds).1 q →
        openIn maze q ∨ NbrsDone N (carveLoop N σ fuel maze k p ds).1 q := by
  intro ds
  induction ds with
  | nil =>
    intro maze k p _ inv _ _ _
    have heq : carveLoop N σ fuel maze k p [] = (maze, k) := by
      simp only [carveLoop]
    rw [heq]
    exact ⟨fun d hd => absurd hd (List.not_mem_nil d), fun q _ hq => Or.inl hq⟩
  | cons d ds ih =>
    intro maze k p hsub inv hodd hopen hfuel
    have hd : d ∈ carveDirections := hsub d (List.mem_cons_self d ds)
    have hds : ∀ x ∈ ds, x ∈ carveDirections := fun x hx => hsub x (List.mem_cons_of_mem d hx)
    by_cases hcond : 0 < (p.add d).x ∧ (p.add d).x < (N : ℤ) - 1 ∧ 0 < (p.add d).y ∧
        (p.add d).y < (N : ℤ) - 1 ∧ cellAt maze (p.add d) = some Cell.wall
    · have heq : carveLoop N σ fuel maze k p (d :: ds)
          = carveLoop N σ fuel
              (carvePath N σ fuel (setCell (setCell maze (p.add d) Cell.path)
                (Point.mk (p.x + d.x / 2) (p.y + d.y / 2)) Cell.path) k (p.add d)).1
              (carvePath N σ fuel (setCell (setCell maze (p.add d) Cell.path)
                (Point.mk (p.x + d.x / 2) (p.y + d.y / 2)) Cell.path) k (p.add d)).2
              p ds := by
        simp only [carveLoop]
        rw [if_pos hcond]
      obtain ⟨h1, h2, h3, h4, h5⟩ := hcond
      obtain ⟨inv2, mono2, hopen2, hodd2, hchar2⟩ :=
        carveStep_inv N maze p d inv hodd hopen hd ⟨h1, h2, h3, h4⟩ h5
      have hlt2 : oddWallCount N (setCell (setCell maze (p.add d) Cell.path)
          (Point.mk (p.x + d.x / 2) (p.y + d.y / 2)) Cell.path) < oddWallCount N maze :=
        oddWallCount_lt N maze _ (p.add d) inv.dims mono2
          (carveInterior_inBounds ⟨h1, h2, h3, h4⟩) hodd2 h5 hopen2
      have hfuel2 : oddWallCount N (setCell (setCell maze (p.add d) Cell.path)
          (Point.mk (p.x + d.x / 2) (p.y + d.y / 2)) Cell.path) < fuel :=
        lt_of_lt_of_le hlt2 hfuel
      obtain ⟨inv3, mono3⟩ := carvePath_inv N σ hσ fuel
        (setCell (setCell maze (p.add d) Cell.path)
          (Point.mk (p.x + d.x / 2) (p.y + d.y / 2)) Cell.path) k (p.add d) inv2 hodd2 hopen2
      obtain ⟨done3, post3⟩ := hP (setCell (setCell maze (p.add d) Cell.path)
          (Point.mk (p.x + d.x / 2) (p.y + d.y / 2)) Cell.path) k (p.add d) inv2 hodd2 hopen2
        hfuel2
      have hopen3p : openIn (carvePath N σ fuel (setCell (setCell maze (p.add d) Cell.path)
          (Point.mk (p.x + d.x / 2) (p.y + d.y / 2)) Cell.path) k (p.add d)).1 p :=
        mono3 p (mono2 p hopen)
      have hfuel3 : oddWallCount N (carvePath N σ fuel (setCell (setCell maze (p.add d)
          Cell.path) (Point.mk (p.x + d.x / 2) (p.y + d.y / 2)) Cell.path) k (p.add d)).1
          ≤ fuel :=
        le_trans (oddWallCount_le N _ _ inv2.dims mono3) (le_of_lt hfuel2)
      obtain ⟨inv4, mono4⟩ := carveLoop_inv_of N σ fuel
        (fun mz kk pp => carvePath_inv N σ hσ fuel mz kk pp) ds
        (carvePath N σ fuel (setCell (setCell maze (p.add d) Cell.path)
          (Point.mk (p.x + d.x / 2) (p.y + d.y / 2)) Cell.path) k (p.add d)).1
        (carvePath N σ fuel (setCell (setCell maze (p.add d) Cell.path)
          (Point.mk (p.x + d.x / 2) (p.y + d.y / 2)) Cell.path) k (p.add d)).2
        p hds inv3 hodd hopen3p
      obtain ⟨donedirs4, post4⟩ := ih
        (carvePath N σ fuel (setCell (setCell maze (p.add d) Cell.path)
          (Point.mk (p.x + d.x / 2) (p.y + d.y / 2)) Cell.path) k (p.add d)).1
        (carvePath N σ fuel (setCell (setCell maze (p.add d) Cell.path)
          (Point.mk (p.x + d.x / 2) (p.y + d.y / 2)) Cell.path) k (p.add d)).2
        p hds inv3 hodd hopen3p hfuel3
      rw [heq]
      constructor
      · intro d2 hd2 hint
        rcases List.mem_cons.1 hd2 with rfl | hd2ds
        · exact mono4 _ (mono3 _ hopen2)
        · exact donedirs4 d2 hd2ds hint
      · intro q hqodd hq4
        rcases post4 q hqodd hq4 with hq3 | hdone4
        · rcases post3 q hqodd hq3 with ⟨hq2, hqT⟩ | hdone3
          · rcases (hchar2 q).1 hq2 with hqM | hqT2 | hqold
            · exfalso
              obtain ⟨o1, o2⟩ := hqodd
              obtain ⟨hpx, hpy⟩ := hodd
              have hdc := carveDirections_cases d hd
              have hMx : (Point.mk (p.x + d.x / 2) (p.y + d.y / 2)).x = p.x + d.x / 2 := rfl
              have hMy : (Point.mk (p.x + d.x / 2) (p.y + d.y / 2)).y = p.y + d.y / 2 := rfl
              rw [hqM, hMx] at o1
              rw [hqM, hMy] at o2
              rcases hdc with ⟨f1, f2⟩ | ⟨f1, f2⟩ <;> omega
            · exact absurd hqT2 hqT
            · exact Or.inl hqold
          · exact Or.inr (NbrsDone_mono mono4 hdone3)
        · exact Or.inr hdone4
    · have heq : carveLoop N σ fuel maze k p (d :: ds) = carveLoop N σ fuel maze k p ds := by
        simp only [carveLoop]
        rw [if_neg hcond]
      obtain ⟨donedirs, post⟩ := ih maze k p hds inv hodd hopen hfuel
      obtain ⟨inv4, mono4⟩ := carveLoop_inv_of N σ fuel
        (fun mz kk pp => carvePath_inv N σ hσ fuel mz kk pp) ds maze k p hds inv hodd hopen
      rw [heq]
      refine ⟨?_, post⟩
      intro d2 hd2 hint
      rcases List.mem_cons.1 hd2 with rfl | hd2ds
      · obtain ⟨i1, i2, i3, i4⟩ := hint
        have hnw : cellAt maze (p.add d2) ≠ some Cell.wall := by
          intro hw
          exact hcond ⟨i1, i2, i3, i4, hw⟩
        obtain ⟨c, hc⟩ := cellAt_some_of_inBounds N maze _ inv.dims
          (carveInterior_inBounds ⟨i1, i2, i3, i4⟩)
        have hop : openIn maze (p.add d2) :=
          ⟨c, hc, fun hcw => hnw (by rw [hc, hcw])⟩
        exact mono4 _ hop
      · exact donedirs d2 hd2ds hint

/-- Spanning bookkeeping through the carve recursion: with fuel
exceeding the number of odd wall cells left and the direction source a
permutation of the carve directions, a finished call leaves every
in-range neighbour of its argument open, and every odd cell it opened
has all its in-range neighbours open. -/
lemma carvePath_spanning (N : ℕ) (σ : ℕ → List Point)
    (hσp : ∀ k, (σ k).Perm carveDirections) :
    ∀ (fuel : ℕ) (maze : Grid) (k : ℕ) (p : Point),
      CarveInv N maze → OddPt p → openIn maze p → oddWallCount N maze < fuel →
      NbrsDone N (carvePath N σ fuel maze k p).1 p ∧
      ∀ q, OddPt q → openIn (carvePath N σ fuel maze k p).1 q →
        (openIn maze q ∧ q ≠ p) ∨ NbrsDone N (carvePath N σ fuel maze k p).1 q := by
  have hσ : ∀ k, ∀ d ∈ σ k, d ∈ carveDirections := fun k d hd => ((hσp k).mem_iff).1 hd
  intro fuel
  induction fuel with
  | zero =>
    intro maze k p _ _ _ hfuel
    exact absurd hfuel (Nat.not_lt_zero _)
  | succ f ih =>
    intro maze k p inv hodd hopen hfuel
    have hmz : setCell maze p Cell.path = maze :=
      setCell_eq_self maze p Cell.path (cellAt_path_of_open N maze p inv hopen)
    have heq : carvePath N σ (f + 1) maze k p = carveLoop N σ f maze (k + 1) p (σ k) := by
      simp only [carvePath]
      rw [hmz]
    obtain ⟨donedirs, post⟩ := carveLoop_spanning_of N σ f hσ ih (σ k) maze (k + 1) p
      (hσ k) inv hodd hopen (by omega)
    rw [heq]
    constructor
    · intro d hd hint
      exact donedirs d (((hσp k).mem_iff).2 hd) hint
    · intro q hqodd hq
      rcases post q hqodd hq with hqold | hdone
      · by_cases hqp : q = p
        · right
          rw [hqp]
          intro d hd hint
          exact donedirs d (((hσp k).mem_iff).2 hd) hint
        · exact Or.inl ⟨hqold, hqp⟩
      · exact Or.inr hdone

end CarveInvariant

section GenerateMaze

lemma replicate_dims (N : ℕ) : Dims N (List.replicate N (List.replicate N Cell.wall)) := by
  constructor
  · simp
  · intro row hr
    rw [List.eq_of_mem_replicate hr]
    simp

lemma cellAt_replicate (N : ℕ) (q : Point) (c : Cell)
    (hc : cellAt (List.replicate N (List.replicate N Cell.wall)) q = some c) :
    c = Cell.wall := by
  unfold cellAt at hc
  by_cases hneg : q.x < 0 ∨ q.y < 0
  · rw [if_pos hneg] at hc
    cases hc
  · rw [if_neg hneg] at hc
    obtain ⟨row, hrow, hcell⟩ := Option.bind_eq_some.1 hc
    have h1 := List.get?_mem hrow
    rw [List.eq_of_mem_replicate h1] at hcell
    exact List.eq_of_mem_replicate (List.get?_mem hcell)

lemma startPoint_inBounds (N : ℕ) (hN : 5 ≤ N) : InBounds N startPoint :=
  ⟨by show (0 : ℤ) ≤ 1; norm_num, by show (1 : ℤ) < (N : ℤ); omega,
   by show (0 : ℤ) ≤ 1; norm_num, by show (1 : ℤ) < (N : ℤ); omega⟩

lemma startPoint_odd : OddPt startPoint := by
  constructor
  · show (1 : ℤ) % 2 = 1
    norm_num
  · show (1 : ℤ) % 2 = 1
    norm_num

/-- The invariant holds for the all-wall grid with the root opened, and
its only open cell is the root. -/
lemma carveInv_init (N : ℕ) (hN : 5 ≤ N) :
    CarveInv N (setCell (List.replicate N (List.replicate N Cell.wall)) startPoint Cell.path) ∧
    (∀ q, openIn (setCell (List.replicate N (List.replicate N Cell.wall))
        startPoint Cell.path) q ↔ q = startPoint) := by
  have hdims0 := replicate_dims N
  have hin := startPoint_inBounds N hN
  have hchar0 : ∀ q, ¬ openIn (List.replicate N (List.replicate N Cell.wall)) q := by
    rintro q ⟨c, hc, hcw⟩
    exact hcw (cellAt_replicate N q c hc)
  have hchar1 := openIn_setCell N _ startPoint Cell.path hdims0 hin (by simp)
  have hchar : ∀ q, openIn (setCell (List.replicate N (List.replicate N Cell.wall))
      startPoint Cell.path) q ↔ q = startPoint := by
    intro q
    rw [hchar1 q]
    constructor
    · rintro (h | h)
      · exact h
      · exact absurd h (hchar0 q)
    · exact Or.inl
  have hdims1 := setCell_dims N _ startPoint Cell.path hdims0
  have hint : CarveInterior N startPoint :=
    ⟨by show (0 : ℤ) < 1; norm_num, by show (1 : ℤ) < (N : ℤ) - 1; omega,
     by show (0 : ℤ) < 1; norm_num, by show (1 : ℤ) < (N : ℤ) - 1; omega⟩
  have hnoadj : ∀ a b : OddVert N,
      ¬ (mazeGraph N (setCell (List.replicate N (List.replicate N Cell.wall))
        startPoint Cell.path)).Adj a b := by
    rintro a b ⟨hne, _, ho1, ho2, _⟩
    rw [hchar (vPoint a)] at ho1
    rw [hchar (vPoint b)] at ho2
    exact hne (vPoint_injective N (by rw [ho1, ho2]))
  refine ⟨⟨hdims1, ?_, ?_, ?_, ?_, ?_, ?_⟩, hchar⟩
  · intro q c hc
    rw [cellAt_setCell N _ startPoint Cell.path hdims0 hin q] at hc
    by_cases hq : q = startPoint
    · rw [if_pos hq] at hc
      exact Or.inr (Option.some.inj hc).symm
    · rw [if_neg hq] at hc
      exact Or.inl (cellAt_replicate N q c hc)
  · intro q hq
    rw [hchar q] at hq
    rw [hq]
    refine ⟨hint, ?_⟩
    intro hpar
    have h1 : (1 : ℤ) % 2 = 0 := hpar.1
    norm_num at h1
  · intro q hq hqx
    rw [hchar q] at hq
    rw [hq] at hqx
    have h1 : (1 : ℤ) % 2 = 0 := hqx
    norm_num at h1
  · intro q hq hqy
    rw [hchar q] at hq
    rw [hq] at hqy
    have h1 : (1 : ℤ) % 2 = 0 := hqy
    norm_num at h1
  · intro v c hc
    cases c with
    | nil => exact hc.ne_nil rfl
    | cons h p => exact hnoadj _ _ h
  · intro r u hr hu
    rw [hchar (vPoint u)] at hu
    have hur : u = r := vPoint_injective N (by rw [hu, hr])
    rw [hur]

/-- Carving from the all-wall grid and carving from the grid with the
root already opened produce the same result: the first carve action is
exactly opening the root. -/
lemma carvePath_walls_eq (N : ℕ) (σ : ℕ → List Point) (f k : ℕ) (hN : 5 ≤ N) :
    carvePath N σ (f + 1) (List.replicate N (List.replicate N Cell.wall)) k startPoint
      = carvePath N σ (f + 1)
          (setCell (List.replicate N (List.replicate N Cell.wall)) startPoint Cell.path)
          k startPoint := by
  have hdims0 := replicate_dims N
  have hin := startPoint_inBounds N hN
  have hcell1 : cellAt (setCell (List.replicate N (List.replicate N Cell.wall))
      startPoint Cell.path) startPoint = some Cell.path := by
    rw [cellAt_setCell N _ startPoint Cell.path hdims0 hin startPoint]
    rw [if_pos rfl]
  have h2 : setCell (setCell (List.replicate N (List.replicate N Cell.wall))
        startPoint Cell.path) startPoint Cell.path
      = setCell (List.replicate N (List.replicate N Cell.wall)) startPoint Cell.path :=
    setCell_eq_self _ _ _ hcell1
  have e1 : carvePath N σ (f + 1) (List.replicate N (List.replicate N Cell.wall)) k startPoint
      = carveLoop N σ f (setCell (List.replicate N (List.replicate N Cell.wall))
          startPoint Cell.path) (k + 1) startPoint (σ k) := by
    simp only [carvePath]
  have e2 : carvePath N σ (f + 1) (setCell (List.replicate N (List.replicate N Cell.wall))
        startPoint Cell.path) k startPoint
      = carveLoop N σ f (setCell (List.replicate N (List.replicate N Cell.wall))
          startPoint Cell.path) (k + 1) startPoint (σ k) := by
    simp only [carvePath]
    rw [h2]
  rw [e1, e2]

/-- The carve phase of the generator establishes the invariant and
leaves the root open. -/
lemma generateMaze_carved (N : ℕ) (σ : ℕ → List Point)
    (hσ : ∀ k, ∀ d ∈ σ k, d ∈ carveDirections) (hN : 5 ≤ N) :
    CarveInv N (carvePath N σ (N * N + 1)
      (List.replicate N (List.replicate N Cell.wall)) 0 startPoint).1 ∧
    openIn (carvePath N σ (N * N + 1)
      (List.replicate N (List.replicate N Cell.wall)) 0 startPoint).1 startPoint := by
  obtain ⟨inv1, hchar⟩ := carveInv_init N hN
  rw [carvePath_walls_eq N σ (N * N) 0 hN]
  have hopen1 : openIn (setCell (List.replicate N (List.replicate N Cell.wall))
      startPoint Cell.path) startPoint := (hchar startPoint).2 rfl
  obtain ⟨invC, monoC⟩ := carvePath_inv N σ hσ (N * N + 1)
    (setCell (List.replicate N (List.replicate N Cell.wall)) startPoint Cell.path)
    0 startPoint inv1 startPoint_odd hopen1
  exact ⟨invC, monoC startPoint hopen1⟩

/-- Lattice induction: once every open odd cell has all its in-range
neighbours open and the root is open, every odd interior cell is
open. -/
lemma lattice_spanning (N : ℕ) (maze : Grid)
    (hroot : openIn maze startPoint)
    (hdone : ∀ q, OddPt q → openIn maze q → NbrsDone N maze q) :
    ∀ q, OddPt q → CarveInterior N q → openIn maze q := by
  have main : ∀ n : ℕ, ∀ q : Point, (q.x + q.y).toNat ≤ n → OddPt q →
      CarveInterior N q → openIn maze q := by
    intro n
    induction n with
    | zero =>
      intro q hle hodd hint
      obtain ⟨i1, _, i3, _⟩ := hint
      exact absurd hle (by omega)
    | succ m ih =>
      intro q hle hodd hint
      by_cases hq1 : q = startPoint
      · rw [hq1]
        exact hroot
      · obtain ⟨o1, o2⟩ := hodd
        obtain ⟨i1, i2, i3, i4⟩ := hint
        have hs1 : startPoint.x = 1 := rfl
        have hs2 : startPoint.y = 1 := rfl
        have hcase : 3 ≤ q.x ∨ 3 ≤ q.y := by
          by_contra hno
          push_neg at hno
          obtain ⟨hn1, hn2⟩ := hno
          apply hq1
          rw [point_eq_iff, hs1, hs2]
          exact ⟨by omega, by omega⟩
        rcases hcase with h3 | h3
        · have hodd2 : OddPt (Point.mk (q.x - 2) q.y) :=
            ⟨by show (q.x - 2) % 2 = 1; omega, o2⟩
          have hint2 : CarveInterior N (Point.mk (q.x - 2) q.y) :=
            ⟨by show (0 : ℤ) < q.x - 2; omega, by show q.x - 2 < (N : ℤ) - 1; omega, i3, i4⟩
          have hle2 : ((Point.mk (q.x - 2) q.y).x + (Point.mk (q.x - 2) q.y).y).toNat ≤ m := by
            show (q.x - 2 + q.y).toNat ≤ m
            omega
          have hopen2 := ih (Point.mk (q.x - 2) q.y) hle2 hodd2 hint2
          have hmem : (Point.mk 2 0) ∈ carveDirections := by
            simp [carveDirections]
          have hstep := hdone (Point.mk (q.x - 2) q.y) hodd2 hopen2 (Point.mk 2 0) hmem
          have haddeq : (Point.mk (q.x - 2) q.y).add (Point.mk 2 0) = q := by
            rw [point_eq_iff]
            exact ⟨by show q.x - 2 + 2 = q.x; omega, by show q.y + 0 = q.y; omega⟩
          rw [haddeq] at hstep
          exact hstep ⟨i1, i2, i3, i4⟩
        · have hodd2 : OddPt (Point.mk q.x (q.y - 2)) :=
            ⟨o1, by show (q.y - 2) % 2 = 1; omega⟩
          have hint2 : CarveInterior N (Point.mk q.x (q.y - 2)) :=
            ⟨i1, i2, by show (0 : ℤ) < q.y - 2; omega, by show q.y - 2 < (N : ℤ) - 1; omega⟩
          have hle2 : ((Point.mk q.x (q.y - 2)).x + (Point.mk q.x (q.y - 2)).y).toNat ≤ m := by
            show (q.x + (q.y - 2)).toNat ≤ m
            omega
          have hopen2 := ih (Point.mk q.x (q.y - 2)) hle2 hodd2 hint2
          have hmem : (Point.mk 0 2) ∈ carveDirections := by
            simp [carveDirections]
          have hstep := hdone (Point.mk q.x (q.y - 2)) hodd2 hopen2 (Point.mk 0 2) hmem
          have haddeq : (Point.mk q.x (q.y - 2)).add (Point.mk 0 2) = q := by
            rw [point_eq_iff]
            exact ⟨by show q.x + 0 = q.x; omega, by show q.y - 2 + 2 = q.y; omega⟩
          rw [haddeq] at hstep
          exact hstep ⟨i1, i2, i3, i4⟩
  intro q hodd hint
  exact main (q.x + q.y).toNat q le_rfl hodd hint

/-- With a full permutation of the carve directions at every draw, the
carve phase opens every odd interior cell. -/
lemma generateMaze_spanned (N : ℕ) (σ : ℕ → List Point)
    (hσp : ∀ k, (σ k).Perm carveDirections) (hN : 5 ≤ N) :
    ∀ q, OddPt q → CarveInterior N q →
      openIn (carvePath N σ (N * N + 1)
        (List.replicate N (List.replicate N Cell.wall)) 0 startPoint).1 q := by
  have hσ : ∀ k, ∀ d ∈ σ k, d ∈ carveDirections := fun k d hd => ((hσp k).mem_iff).1 hd
  obtain ⟨inv1, hchar⟩ := carveInv_init N hN
  rw [carvePath_walls_eq N σ (N * N) 0 hN]
  have hopen1 : openIn (setCell (List.replicate N (List.replicate N Cell.wall))
      startPoint Cell.path) startPoint := (hchar startPoint).2 rfl
  obtain ⟨invC, monoC⟩ := carvePath_inv N σ hσ (N * N + 1)
    (setCell (List.replicate N (List.replicate N Cell.wall)) startPoint Cell.path)
    0 startPoint inv1 startPoint_odd hopen1
  have hfuel : oddWallCount N (setCell (List.replicate N (List.replicate N Cell.wall))
      startPoint Cell.path) < N * N + 1 :=
    Nat.lt_succ_of_le (oddWallCount_le_sq N _)
  obtain ⟨droot, post⟩ := carvePath_spanning N σ hσp (N * N + 1)
    (setCell (List.replicate N (List.replicate N Cell.wall)) startPoint Cell.path)
    0 startPoint inv1 startPoint_odd hopen1 hfuel
  have hdone : ∀ q, OddPt q →
      openIn (carvePath N σ (N * N + 1)
        (setCell (List.replicate N (List.replicate N Cell.wall)) startPoint Cell.path)
        0 startPoint).1 q →
      NbrsDone N (carvePath N σ (N * N + 1)
        (setCell (List.replicate N (List.replicate N Cell.wall)) startPoint Cell.path)
        0 startPoint).1 q := by
    intro q hodd hq
    rcases post q hodd hq with ⟨ho1, hne⟩ | hd
    · exact absurd ((hchar q).1 ho1) hne
    · exact hd
  exact lattice_spanning N _ (monoC startPoint hopen1) hdone

lemma exitPoint_inBounds (N : ℕ) (hN : 5 ≤ N) : InBounds N (exitPoint N) :=
  ⟨by show (0 : ℤ) ≤ (N : ℤ) - 2; omega, by show (N : ℤ) - 2 < (N : ℤ); omega,
   by show (0 : ℤ) ≤ (N : ℤ) - 2; omega, by show (N : ℤ) - 2 < (N : ℤ); omega⟩

/-- The open cells of a generated maze are the exit cell plus the open
cells of its carve phase. -/
lemma generateMaze_open_iff (N : ℕ) (σ : ℕ → List Point)
    (hσ : ∀ k, ∀ d ∈ σ k, d ∈ carveDirections) (hN : 5 ≤ N) :
    ∀ q, openIn (generateMaze N σ) q ↔
      q = exitPoint N ∨ openIn (carvePath N σ (N * N + 1)
        (List.replicate N (List.replicate N Cell.wall)) 0 startPoint).1 q := by
  obtain ⟨invC, hopenroot⟩ := generateMaze_carved N σ hσ hN
  have hinS := startPoint_inBounds N hN
  have hinE := exitPoint_inBounds N hN
  have hgen : generateMaze N σ
      = setCell (setCell (carvePath N σ (N * N + 1)
          (List.replicate N (List.replicate N Cell.wall)) 0 startPoint).1
          startPoint Cell.player) (exitPoint N) Cell.exitCell := rfl
  have hd1 := setCell_dims N _ startPoint Cell.player invC.dims
  have chp := openIn_setCell N _ startPoint Cell.player invC.dims hinS (by simp)
  have che := openIn_setCell N _ (exitPoint N) Cell.exitCell hd1 hinE (by simp)
  intro q
  rw [hgen, che q, chp q]
  constructor
  · rintro (h | h | h)
    · exact Or.inl h
    · rw [h]
      exact Or.inr hopenroot
    · exact Or.inr h
  · rintro (h | h)
    · exact Or.inl h
    · exact Or.inr (Or.inr h)

lemma generateMaze_dims (N : ℕ) (σ : ℕ → List Point)
    (hσ : ∀ k, ∀ d ∈ σ k, d ∈ carveDirections) (hN : 5 ≤ N) :
    Dims N (generateMaze N σ) := by
  obtain ⟨invC, _⟩ := generateMaze_carved N σ hσ hN
  have hgen : generateMaze N σ
      = setCell (setCell (carvePath N σ (N * N + 1)
          (List.replicate N (List.replicate N Cell.wall)) 0 startPoint).1
          startPoint Cell.player) (exitPoint N) Cell.exitCell := rfl
  rw [hgen]
  exact setCell_dims N _ _ _ (setCell_dims N _ _ _ invC.dims)

end GenerateMaze

section CellReachability

lemma openCell_iff_openIn (N : ℕ) (maze : Grid) (hd : Dims N maze) (q : Point) :
    openCell N maze q ↔ openIn maze q := by
  constructor
  · rintro ⟨hin, hnw⟩
    obtain ⟨c, hc⟩ := cellAt_some_of_inBounds N maze q hd hin
    exact ⟨c, hc, fun hcw => hnw (by rw [hc, hcw])⟩
  · rintro ⟨c, hc, hcw⟩
    refine ⟨cellAt_inBounds N maze q c hd hc, ?_⟩
    intro hw
    rw [hw] at hc
    exact hcw (Option.some.inj hc).symm

lemma adjStep_of_eq_add {p q : Point} (d : Point) (hd : d ∈ bfsDirections)
    (h : q = p.add d) : adjStep p q := by
  unfold adjStep
  rw [h]
  exact List.mem_map_of_mem _ hd

/-- The three-cell open path along one edge of the odd-cell graph. -/
lemma twoStep_goodPath (N : ℕ) (maze : Grid) (hd : Dims N maze) (A B : Point)
    (hts : twoStep A B) (hA : openIn maze A) (hB : openIn maze B)
    (hM : openIn maze (midP A B)) :
    GoodPath N maze A B [A, midP A B, B] := by
  have hAM : adjStep A (midP A B) := by
    rcases hts with ⟨hx, hy | hy⟩ | ⟨hy, hx | hx⟩
    · exact adjStep_of_eq_add (Point.mk 0 (-1)) (by simp [bfsDirections])
        (by rw [point_eq_iff]
            exact ⟨by show (A.x + B.x) / 2 = A.x + 0; omega,
                   by show (A.y + B.y) / 2 = A.y + -1; omega⟩)
    · exact adjStep_of_eq_add (Point.mk 0 1) (by simp [bfsDirections])
        (by rw [point_eq_iff]
            exact ⟨by show (A.x + B.x) / 2 = A.x + 0; omega,
                   by show (A.y + B.y) / 2 = A.y + 1; omega⟩)
    · exact adjStep_of_eq_add (Point.mk (-1) 0) (by simp [bfsDirections])
        (by rw [point_eq_iff]
            exact ⟨by show (A.x + B.x) / 2 = A.x + -1; omega,
                   by show (A.y + B.y) / 2 = A.y + 0; omega⟩)
    · exact adjStep_of_eq_add (Point.mk 1 0) (by simp [bfsDirections])
        (by rw [point_eq_iff]
            exact ⟨by show (A.x + B.x) / 2 = A.x + 1; omega,
                   by show (A.y + B.y) / 2 = A.y + 0; omega⟩)
  have hMB : adjStep (midP A B) B := by
    rcases hts with ⟨hx, hy | hy⟩ | ⟨hy, hx | hx⟩
    · exact adjStep_of_eq_add (Point.mk 0 (-1)) (by simp [bfsDirections])
        (by rw [point_eq_iff]
            exact ⟨by show B.x = (A.x + B.x) / 2 + 0; omega,
                   by show B.y = (A.y + B.y) / 2 + -1; omega⟩)
    · exact adjStep_of_eq_add (Point.mk 0 1) (by simp [bfsDirections])
        (by rw [point_eq_iff]
            exact ⟨by show B.x = (A.x + B.x) / 2 + 0; omega,
                   by show B.y = (A.y + B.y) / 2 + 1; omega⟩)
    · exact adjStep_of_eq_add (Point.mk (-1) 0) (by simp [bfsDirections])
        (by rw [point_eq_iff]
            exact ⟨by show B.x = (A.x + B.x) / 2 + -1; omega,
                   by show B.y = (A.y + B.y) / 2 + 0; omega⟩)
    · exact adjStep_of_eq_add (Point.mk 1 0) (by simp [bfsDirections])
        (by rw [point_eq_iff]
            exact ⟨by show B.x = (A.x + B.x) / 2 + 1; omega,
                   by show B.y = (A.y + B.y) / 2 + 0; omega⟩)
  refine ⟨rfl, rfl, ?_, ?_⟩
  · exact List.Chain.cons hAM (List.Chain.cons hMB List.Chain.nil)
  · intro p hp
    simp only [List.mem_cons, List.not_mem_nil, or_false] at hp
    rcases hp with rfl | rfl | rfl
    · exact (openCell_iff_openIn N maze hd _).2 hA
    · exact (openCell_iff_openIn N maze hd _).2 hM
    · exact (openCell_iff_openIn N maze hd _).2 hB

/-- Gluing an open path onto a reachability certificate. -/
lemma reach_extend (N : ℕ) (maze : Grid) :
    ∀ (n : ℕ) (s m e : Point) (π : List Point), π.length ≤ n →
      ReachableCell N maze s m → GoodPath N maze m e π → ReachableCell N maze s e := by
  intro n
  induction n with
  | zero =>
    intro s m e π hlen hr hg
    have h1 := hg.one_le_length
    exact absurd hlen (by omega)
  | succ n ih =>
    intro s m e π hlen hr hg
    by_cases hl : π.length ≤ 1
    · have h1 : π.length = 1 := le_antisymm hl hg.one_le_length
      obtain ⟨p, hp⟩ := List.length_eq_one.1 h1
      rw [hp] at hg
      obtain ⟨hpm, hpe, _⟩ := GoodPath_singleton_iff.1 hg
      rw [← hpe, hpm]
      exact hr
    · push_neg at hl
      obtain ⟨π2, e2, hsplit, hg2, hadj, hlen2⟩ := GoodPath_snoc_elim hg (by omega)
      obtain ⟨ρ, hρ⟩ := ih s m e2 π2 (by omega) hr hg2
      have hopene : openCell N maze e := by
        obtain ⟨_, _, _, h4⟩ := hg
        exact h4 e (by rw [hsplit]; simp)
      exact ⟨ρ ++ [e], GoodPath_snoc hρ hadj hopene⟩

lemma ReachableCell_trans {N : ℕ} {maze : Grid} {s m e : Point}
    (h1 : ReachableCell N maze s m) (h2 : ReachableCell N maze m e) :
    ReachableCell N maze s e := by
  obtain ⟨π, hπ⟩ := h2
  exact reach_extend N maze π.length s m e π le_rfl h1 hπ

/-- A walk on the odd-cell graph induces cell-level reachability. -/
lemma walk_reachableCell (N : ℕ) (maze : Grid) (hd : Dims N maze) :
    ∀ (u w : OddVert N), (mazeGraph N maze).Walk u w → openIn maze (vPoint u) →
      ReachableCell N maze (vPoint u) (vPoint w) := by
  intro u w walk
  induction walk with
  | nil =>
    intro hopen
    exact ⟨_, GoodPath_single ((openCell_iff_openIn N maze hd _).2 hopen)⟩
  | cons h p ih =>
    intro hopen
    obtain ⟨hne, hts, ho1, ho2, hom⟩ := h
    have rc1 : ReachableCell N maze (vPoint _) (vPoint _) :=
      ⟨_, twoStep_goodPath N maze hd _ _ hts ho1 ho2 hom⟩
    exact ReachableCell_trans rc1 (ih ho2)

/-- In any grid satisfying the generator invariant with an open root,
every open cell is reachable from the root: odd cells through the graph,
connectors through one of their odd endpoints. -/
lemma carveInv_reachableCell (N : ℕ) (maze : Grid) (inv : CarveInv N maze)
    (hroot : openIn maze startPoint) :
    ∀ q, openIn maze q → ReachableCell N maze startPoint q := by
  have hrin : InBounds N startPoint := openIn_inBounds N maze startPoint inv.dims hroot
  have hoddcase : ∀ q, openIn maze q → q.x % 2 = 1 → q.y % 2 = 1 →
      ReachableCell N maze startPoint q := by
    intro q hq hqx hqy
    have hqin : InBounds N q := openIn_inBounds N maze q inv.dims hq
    have hreach := inv.reach (toVert N startPoint hrin startPoint_odd)
      (toVert N q hqin ⟨hqx, hqy⟩) (vPoint_toVert N startPoint hrin startPoint_odd)
      (by rw [vPoint_toVert]; exact hq)
    obtain ⟨walk⟩ := hreach
    have hrc := walk_reachableCell N maze inv.dims _ _ walk
      (by rw [vPoint_toVert]; exact hroot)
    rw [vPoint_toVert, vPoint_toVert] at hrc
    exact hrc
  intro q hq
  obtain ⟨hint, hpar⟩ := inv.shape q hq
  by_cases hqx : q.x % 2 = 1
  · by_cases hqy : q.y % 2 = 1
    · exact hoddcase q hq hqx hqy
    · have hy0 : q.y % 2 = 0 := by omega
      obtain ⟨hA, _⟩ := inv.connY q hq hy0
      have hAodd2 : (Point.mk q.x (q.y - 1)).y % 2 = 1 := by
        show (q.y - 1) % 2 = 1
        omega
      obtain ⟨π, hπ⟩ := hoddcase (Point.mk q.x (q.y - 1)) hA hqx hAodd2
      have hadj : adjStep (Point.mk q.x (q.y - 1)) q :=
        adjStep_of_eq_add (Point.mk 0 1) (by simp [bfsDirections])
          (by rw [point_eq_iff]
              exact ⟨by show q.x = q.x + 0; omega, by show q.y = q.y - 1 + 1; omega⟩)
      exact ⟨π ++ [q], GoodPath_snoc hπ hadj ((openCell_iff_openIn N maze inv.dims q).2 hq)⟩
  · have hx0 : q.x % 2 = 0 := by omega
    have hqy : q.y % 2 = 1 := by
      by_cases h : q.y % 2 = 1
      · exact h
      · exact absurd ⟨hx0, by omega⟩ hpar
    obtain ⟨hA, _⟩ := inv.connX q hq hx0
    have hAodd1 : (Point.mk (q.x - 1) q.y).x % 2 = 1 := by
      show (q.x - 1) % 2 = 1
      omega
    obtain ⟨π, hπ⟩ := hoddcase (Point.mk (q.x - 1) q.y) hA hAodd1 hqy
    have hadj : adjStep (Point.mk (q.x - 1) q.y) q :=
      adjStep_of_eq_add (Point.mk 1 0) (by simp [bfsDirections])
        (by rw [point_eq_iff]
            exact ⟨by show q.x = q.x - 1 + 1; omega, by show q.y = q.y + 0; omega⟩)
    exact ⟨π ++ [q], GoodPath_snoc hπ hadj ((openCell_iff_openIn N maze inv.dims q).2 hq)⟩

/-- The odd-cell graph depends only on the open set. -/
lemma mazeGraph_congr (N : ℕ) (m1 m2 : Grid) (h : ∀ q, openIn m1 q ↔ openIn m2 q) :
    mazeGraph N m1 = mazeGraph N m2 := by
  ext a b
  constructor
  · rintro ⟨h1, h2, h3, h4, h5⟩
    exact ⟨h1, h2, (h _).1 h3, (h _).1 h4, (h _).1 h5⟩
  · rintro ⟨h1, h2, h3, h4, h5⟩
    exact ⟨h1, h2, (h _).2 h3, (h _).2 h4, (h _).2 h5⟩

lemma ReachableCell_congr (N : ℕ) (m1 m2 : Grid)
    (h : ∀ q, openCell N m1 q ↔ openCell N m2 q) {s e : Point}
    (hr : ReachableCell N m1 s e) : ReachableCell N m2 s e := by
  obtain ⟨π, g1, g2, g3, g4⟩ := hr
  exact ⟨π, g1, g2, g3, fun p hp => (h p).1 (g4 p hp)⟩

end CellReachability

/-- C2: for every run of the generator (any permutation of the carve
directions at every draw, any valid odd side length), every open cell of
the produced grid is reachable from the start cell, and the open-cell
connectivity graph restricted to the odd-coordinate cells is a spanning
tree: connected, acyclic, and with exactly one simple path between any
two carveable cells. -/
theorem C2_perfect_maze (N : ℕ) (σ : ℕ → List Point)
    (hσp : ∀ k, (σ k).Perm carveDirections) (hN : 5 ≤ N) (hNodd : N % 2 = 1) :
    (∀ q, openIn (generateMaze N σ) q →
      ReachableCell N (generateMaze N σ) startPoint q) ∧
    (mazeGraph N (generateMaze N σ)).IsTree ∧
    (∀ u w : OddVert N, ∃! p : (mazeGraph N (generateMaze N σ)).Walk u w, p.IsPath) := by
  have hσ : ∀ k, ∀ d ∈ σ k, d ∈ carveDirections := fun k d hd => ((hσp k).mem_iff).1 hd
  obtain ⟨invC, hopenroot⟩ := generateMaze_carved N σ hσ hN
  have hspan := generateMaze_spanned N σ hσp hN
  have hexitodd : OddPt (exitPoint N) := by
    constructor
    · show ((N : ℤ) - 2) % 2 = 1
      omega
    · show ((N : ℤ) - 2) % 2 = 1
      omega
  have hexitint : CarveInterior N (exitPoint N) :=
    ⟨by show (0 : ℤ) < (N : ℤ) - 2; omega, by show (N : ℤ) - 2 < (N : ℤ) - 1; omega,
     by show (0 : ℤ) < (N : ℤ) - 2; omega, by show (N : ℤ) - 2 < (N : ℤ) - 1; omega⟩
  have hexitopen := hspan (exitPoint N) hexitodd hexitint
  have hchar0 := generateMaze_open_iff N σ hσ hN
  have hchar : ∀ q, openIn (generateMaze N σ) q ↔
      openIn (carvePath N σ (N * N + 1)
        (List.replicate N (List.replicate N Cell.wall)) 0 startPoint).1 q := by
    intro q
    rw [hchar0 q]
    constructor
    · rintro (h | h)
      · rw [h]
        exact hexitopen
      · exact h
    · exact Or.inr
  have hdimsF := generateMaze_dims N σ hσ hN
  have hcellchar : ∀ q, openCell N (generateMaze N σ) q ↔
      openCell N (carvePath N σ (N * N + 1)
        (List.replicate N (List.replicate N Cell.wall)) 0 startPoint).1 q := by
    intro q
    rw [openCell_iff_openIn N _ hdimsF q, openCell_iff_openIn N _ invC.dims q]
    exact hchar q
  have hgr : mazeGraph N (generateMaze N σ)
      = mazeGraph N (carvePath N σ (N * N + 1)
        (List.replicate N (List.replicate N Cell.wall)) 0 startPoint).1 :=
    mazeGraph_congr N _ _ hchar
  have hrin := startPoint_inBounds N hN
  have hallopen : ∀ v : OddVert N, openIn (carvePath N σ (N * N + 1)
      (List.replicate N (List.replicate N Cell.wall)) 0 startPoint).1 (vPoint v) := by
    intro v
    obtain ⟨o1, o2⟩ := vPoint_odd v
    obtain ⟨b1, b2, b3, b4⟩ := vPoint_lt v
    exact hspan (vPoint v) ⟨o1, o2⟩ ⟨by omega, by omega, by omega, by omega⟩
  have hconn : (mazeGraph N (carvePath N σ (N * N + 1)
      (List.replicate N (List.replicate N Cell.wall)) 0 startPoint).1).Connected := by
    haveI : Nonempty (OddVert N) := ⟨toVert N startPoint hrin startPoint_odd⟩
    refine ⟨?_⟩
    intro u w
    have hu := invC.reach (toVert N startPoint hrin startPoint_odd) u
      (vPoint_toVert N startPoint hrin startPoint_odd) (hallopen u)
    have hw := invC.reach (toVert N startPoint hrin startPoint_odd) w
      (vPoint_toVert N startPoint hrin startPoint_odd) (hallopen w)
    exact hu.symm.trans hw
  have htree : (mazeGraph N (generateMaze N σ)).IsTree := by
    rw [hgr]
    exact ⟨hconn, invC.acyclic⟩
  refine ⟨?_, htree, htree.existsUnique_path⟩
  intro q hq
  have hq2 := (hchar q).1 hq
  have hrc := carveInv_reachableCell N _ invC hopenroot q hq2
  exact ReachableCell_congr N _ _ (fun r => (hcellchar r).symm) hrc

/-- Witness for C2: the five by five generator with the identity
shuffle at every draw. -/
theorem C2_witness :
    (∀ k : ℕ, ((fun _ : ℕ => carveDirections) k).Perm carveDirections) ∧
    ((∀ q, openIn (generateMaze 5 (fun _ => carveDirections)) q →
        ReachableCell 5 (generateMaze 5 (fun _ => carveDirections)) startPoint q) ∧
      (mazeGraph 5 (generateMaze 5 (fun _ => carveDirections))).IsTree ∧
      (∀ u w : OddVert 5,
        ∃! p : (mazeGraph 5 (generateMaze 5 (fun _ => carveDirections))).Walk u w,
          p.IsPath)) :=
  ⟨fun _ => List.Perm.refl _,
    C2_perfect_maze 5 (fun _ => carveDirections) (fun _ => List.Perm.refl _)
      (by norm_num) (by norm_num)⟩

/-- C10: every generated maze keeps its whole boundary ring walled, the
player position stays in the interior band (rows and columns 1 through
N - 2) throughout any episode, and every destination lookup of a move
attempt lands inside the grid. -/
theorem C10_boundary_safety (N : ℕ) (σ : ℕ → List Point) (now : ℤ) (moves : List (Dir × ℤ))
    (hσ : ∀ k, ∀ d ∈ σ k, d ∈ carveDirections) (hN : 5 ≤ N) :
    BoundaryWalls N (generateMaze N σ) ∧
    Interior N (runMoves N (generateMaze N σ)
      (startState N (generateMaze N σ) now) moves).playerPos ∧
    (∀ d : Dir, ∃ c, cellAt (generateMaze N σ)
      ((runMoves N (generateMaze N σ)
        (startState N (generateMaze N σ) now) moves).playerPos.add (dirVec d)) = some c) := by
  obtain ⟨invC, hopenroot⟩ := generateMaze_carved N σ hσ hN
  have hdimsF := generateMaze_dims N σ hσ hN
  have hchar := generateMaze_open_iff N σ hσ hN
  have hbw : BoundaryWalls N (generateMaze N σ) := by
    intro xn hx yn hy hring
    have hin : InBounds N (Point.mk (xn : ℤ) (yn : ℤ)) :=
      ⟨Int.ofNat_nonneg _, Int.ofNat_lt.2 hx, Int.ofNat_nonneg _, Int.ofNat_lt.2 hy⟩
    obtain ⟨c, hc⟩ := cellAt_some_of_inBounds N _ _ hdimsF hin
    by_cases hcw : c = Cell.wall
    · rw [hc, hcw]
    · exfalso
      have hopen : openIn (generateMaze N σ) (Point.mk (xn : ℤ) (yn : ℤ)) := ⟨c, hc, hcw⟩
      rcases (hchar _).1 hopen with hexit | hopenC
      · have he1 : (xn : ℤ) = (N : ℤ) - 2 := congrArg Point.x hexit
        have he2 : (yn : ℤ) = (N : ℤ) - 2 := congrArg Point.y hexit
        rcases hring with h | h | h | h <;> omega
      · obtain ⟨⟨i1, i2, i3, i4⟩, _⟩ := invC.shape _ hopenC
        have j1 : (0 : ℤ) < (xn : ℤ) := i1
        have j2 : (xn : ℤ) < (N : ℤ) - 1 := i2
        have j3 : (0 : ℤ) < (yn : ℤ) := i3
        have j4 : (yn : ℤ) < (N : ℤ) - 1 := i4
        rcases hring with h | h | h | h <;> omega
  have hpos : Interior N (startState N (generateMaze N σ) now).playerPos := by
    refine ⟨by norm_num [startState, startPoint], ?_,
      by norm_num [startState, startPoint], ?_⟩ <;>
      · show (1 : ℤ) ≤ (N : ℤ) - 2
        omega
  have hm : MatDims N (startState N (generateMaze N σ) now).heatmap := by
    constructor
    · simp [startState]
    · intro r hr
      have := List.eq_of_mem_replicate hr
      simp [this]
  obtain ⟨hintpos, _, _⟩ :=
    runMoves_inv N _ hbw moves (startState N (generateMaze N σ) now) hpos hm
  refine ⟨hbw, hintpos, ?_⟩
  intro d
  obtain ⟨p1, p2, p3, p4⟩ := hintpos
  have hib : InBounds N ((runMoves N (generateMaze N σ)
      (startState N (generateMaze N σ) now) moves).playerPos.add (dirVec d)) := by
    cases d <;> exact ⟨by simp [Point.add, dirVec]; omega, by simp [Point.add, dirVec]; omega,
      by simp [Point.add, dirVec]; omega, by simp [Point.add, dirVec]; omega⟩
  exact cellAt_some_of_inBounds N _ _ hdimsF hib

/-- Witness for C10: the five by five generator with the identity
shuffle, over the three-move episode. -/
theorem C10_witness :
    (∀ k : ℕ, ∀ d ∈ (fun _ : ℕ => carveDirections) k, d ∈ carveDirections) ∧
    (BoundaryWalls 5 (generateMaze 5 (fun _ => carveDirections)) ∧
      Interior 5 (runMoves 5 (generateMaze 5 (fun _ => carveDirections))
        (startState 5 (generateMaze 5 (fun _ => carveDirections)) 0)
        threeMoves).playerPos ∧
      (∀ d : Dir, ∃ c, cellAt (generateMaze 5 (fun _ => carveDirections))
        ((runMoves 5 (generateMaze 5 (fun _ => carveDirections))
          (startState 5 (generateMaze 5 (fun _ => carveDirections)) 0)
          threeMoves).playerPos.add (dirVec d)) = some c)) :=
  ⟨fun _ _ hd => hd,
    C10_boundary_safety 5 (fun _ => carveDirections) 0 threeMoves (fun _ _ hd => hd)
      (by norm_num)⟩

/-- C6 (spec-modelled): a configuration whose side length is even or
below 5 is rejected with a configuration error naming the offending
value, before any maze generation occurs; nothing coerces it to a valid
size.  The configuration boundary itself is absent from the source,
which hard-wires `MAZE_SIZE = 21`; it is modelled from the spec. -/
theorem C6_invalid_config_rejected (n : ℕ) (σ : ℕ → List Point) (h : n % 2 = 0 ∨ n < 5) :
    configureMaze n σ = Except.error (ConfigError.invalidSideLength n) := by
  unfold configureMaze
  rw [if_pos h]

/-- Witness for C6: side length 4 (even) is rejected. -/
theorem C6_witness :
    ((4 : ℕ) % 2 = 0 ∨ (4 : ℕ) < 5) ∧
    configureMaze 4 (fun _ => carveDirections)
      = Except.error (ConfigError.invalidSideLength 4) :=
  ⟨by decide, C6_invalid_config_rejected 4 (fun _ => carveDirections) (by decide)⟩

/-- C7 (spec-modelled): with the injectable seeded random source that
the spec requires (the source itself calls the ambient unseeded
`Math.random()`), two generation runs with the same side length and the
same seed produce identical grids and identical optimal paths, because
generation is a pure function of the side length and the injected
source. -/
theorem C7_seed_determinism (N : ℕ) (seed1 seed2 : ℕ) (h : seed1 = seed2) :
    generateMaze N (seededShuffle seed1) = generateMaze N (seededShuffle seed2) ∧
    findOptimalPath N (generateMaze N (seededShuffle seed1)) startPoint (exitPoint N)
      = findOptimalPath N (generateMaze N (seededShuffle seed2)) startPoint (exitPoint N) := by
  subst h
  exact ⟨rfl, rfl⟩

/-- Witness for C7: seed 1 twice on the five by five size. -/
theorem C7_witness :
    (1 : ℕ) = 1 ∧
    generateMaze 5 (seededShuffle 1) = generateMaze 5 (seededShuffle 1) :=
  ⟨rfl, (C7_seed_determinism 5 1 1 rfl).1⟩

end MazeGame
